import Mathlib

/-!
Verification of the files2prompt traversal-and-emission pipeline.

This file gives a shallow embedding, in Lean, of the core of the
repository (src/utils.ts, src/printing.ts, src/walker.ts) and proves or
refutes the frozen claims about it.

Modelling conventions, used throughout:

- JavaScript strings are modelled as Lean `String` / `List Char`, i.e. as
  sequences of Unicode scalar values.  JavaScript operates on UTF-16 code
  units; the two views agree on all characters below U+10000, and no file
  in the repository depends on surrogate-level behaviour.
- String primitives used by the source (split on a newline, trim, join,
  padStart, includes, endsWith, basename, extname) are re-implemented
  here character by character so that every definition is structurally
  recursive and evaluates inside the kernel.
- `fs` side effects (readdir, open, read, stat) are modelled by passing
  the directory tree in as data and recording each observable action in
  an event trace; see the walker section below.
-/

/-! ## Character-level string helpers -/

/-- The four JavaScript line terminators.  In a JavaScript regular
expression without the dotAll or multiline flags, the dot matches any
code unit except these. -/
def isLineTerminator (c : Char) : Bool :=
  c == '\n' || c == '\r' || c == ' ' || c == ' '

/-- Tests whether `sub` is an initial run of `l` (the charwise analogue
of a prefix test). -/
def leadsWith : List Char → List Char → Bool
  | [], _ => true
  | _ :: _, [] => false
  | s :: ss, c :: cs => s == c && leadsWith ss cs

/-- Tests whether `sub` occurs contiguously inside `l`; the charwise
analogue of the JavaScript `String.prototype.includes`. -/
def containsSub (l sub : List Char) : Bool :=
  leadsWith sub l ||
    match l with
    | [] => false
    | _ :: rest => containsSub rest sub

theorem leadsWith_length {sub l : List Char} (h : leadsWith sub l = true) :
    sub.length ≤ l.length := by
  induction sub generalizing l with
  | nil => simp
  | cons s ss ih =>
    cases l with
    | nil => simp [leadsWith] at h
    | cons c cs =>
      simp [leadsWith] at h
      have := ih h.2
      simp [List.length_cons]
      omega

theorem leadsWith_iff {sub l : List Char} :
    leadsWith sub l = true ↔ ∃ rest, l = sub ++ rest := by
  induction sub generalizing l with
  | nil => simp [leadsWith]
  | cons s ss ih =>
    cases l with
    | nil =>
      simp [leadsWith]
    | cons c cs =>
      constructor
      · intro h
        simp [leadsWith] at h
        obtain ⟨rest, hrest⟩ := ih.mp h.2
        exact ⟨rest, by simp [h.1, hrest]⟩
      · rintro ⟨rest, hrest⟩
        simp at hrest
        obtain ⟨h1, h2⟩ := hrest
        subst h1
        simp [leadsWith, ih]
        exact ⟨rest, h2⟩

theorem containsSub_length {l sub : List Char} (h : containsSub l sub = true) :
    sub.length ≤ l.length := by
  induction l with
  | nil =>
    rw [containsSub] at h
    simp at h
    cases sub with
    | nil => simp
    | cons s ss => simp [leadsWith] at h
  | cons c cs ih =>
    rw [containsSub] at h
    simp at h
    rcases h with h | h
    · exact leadsWith_length h
    · exact Nat.le_trans (ih h) (by simp)

theorem containsSub_iff {l sub : List Char} :
    containsSub l sub = true ↔ ∃ pre post, l = pre ++ sub ++ post := by
  induction l with
  | nil =>
    rw [containsSub]
    constructor
    · intro h
      simp at h
      obtain ⟨rest, hrest⟩ := leadsWith_iff.mp h
      exact ⟨[], rest, by simpa using hrest⟩
    · rintro ⟨pre, post, h⟩
      have hpre : pre = [] := by cases pre <;> simp_all
      subst hpre
      simp at h
      obtain ⟨h1, h2⟩ := h
      subst h1
      simp [leadsWith]
  | cons c cs ih =>
    rw [containsSub]
    simp [leadsWith_iff, ih]
    constructor
    · rintro (⟨rest, h⟩ | ⟨pre, post, h⟩)
      · exact ⟨[], rest, by simpa using h⟩
      · exact ⟨c :: pre, post, by simp [h]⟩
    · rintro ⟨pre, post, h⟩
      cases pre with
      | nil => exact Or.inl ⟨post, by simpa using h⟩
      | cons p pre =>
        right
        simp at h
        exact ⟨pre, post, by simp [h.2]⟩

/-! ## Pattern matcher (src/utils.ts, fnmatch)

The source translates a glob pattern into a JavaScript regular
expression: every regex metacharacter except the asterisk and the
question mark is escaped, the asterisk becomes dot-star, the question
mark becomes dot, and the result is anchored at both ends.  The
JavaScript dot matches any character except a line terminator, so the
two wildcards never match a line terminator.  `globMatch` is the direct
recursive rendering of that anchored regex over the pattern and the
name; `starLoop` renders the backtracking of dot-star. -/

def starLoop (k : List Char → Bool) : List Char → Bool
  | [] => k []
  | c :: cs => k (c :: cs) || (!isLineTerminator c && starLoop k cs)

/-- One non-star pattern atom applied to the front of the name, with the
continuation `k` for the rest of the pattern. -/
def globStep (k : List Char → Bool) (p : Char) : List Char → Bool
  | [] => false
  | c :: cs' =>
    if p = '?' then !isLineTerminator c && k cs'
    else (p == c) && k cs'

def globMatch : List Char → List Char → Bool
  | [], cs => cs.isEmpty
  | p :: ps, cs =>
    if p = '*' then starLoop (globMatch ps) cs
    else globStep (globMatch ps) p cs

/-- Embedding of `fnmatch(name, pattern)` from src/utils.ts. -/
def fnmatch (name pattern : String) : Bool :=
  globMatch pattern.data name.data

/-- Declarative glob semantics, faithful to the source: the star matches
zero or more characters none of which is a line terminator, the question
mark matches exactly one character that is not a line terminator, and
every other pattern character matches itself literally. -/
inductive GlobSpec : List Char → List Char → Prop where
  | nil : GlobSpec [] []
  | star_skip {ps cs} : GlobSpec ps cs → GlobSpec ('*' :: ps) cs
  | star_take {ps c cs} : isLineTerminator c = false →
      GlobSpec ('*' :: ps) cs → GlobSpec ('*' :: ps) (c :: cs)
  | one {ps c cs} : isLineTerminator c = false →
      GlobSpec ps cs → GlobSpec ('?' :: ps) (c :: cs)
  | lit {p ps cs} : p ≠ '*' → p ≠ '?' →
      GlobSpec ps cs → GlobSpec (p :: ps) (p :: cs)

/-- Glob semantics exactly as the claim words them: the star matches
zero or more characters (any characters) and the question mark matches
exactly one character (any character).  Used only to exhibit the gap
between the claim and the code. -/
inductive GlobSpecAny : List Char → List Char → Prop where
  | nil : GlobSpecAny [] []
  | star_skip {ps cs} : GlobSpecAny ps cs → GlobSpecAny ('*' :: ps) cs
  | star_take {ps c cs} :
      GlobSpecAny ('*' :: ps) cs → GlobSpecAny ('*' :: ps) (c :: cs)
  | one {ps c cs} : GlobSpecAny ps cs → GlobSpecAny ('?' :: ps) (c :: cs)
  | lit {p ps cs} : p ≠ '*' → p ≠ '?' →
      GlobSpecAny ps cs → GlobSpecAny (p :: ps) (p :: cs)


theorem starLoop_iff {k : List Char → Bool} {cs : List Char} :
    starLoop k cs = true ↔
      ∃ a b, cs = a ++ b ∧ (∀ c ∈ a, isLineTerminator c = false) ∧ k b = true := by
  induction cs with
  | nil =>
    rw [show starLoop k [] = k [] from rfl]
    constructor
    · intro h
      exact ⟨[], [], by simp, by simp, h⟩
    · rintro ⟨a, b, h1, h2, h3⟩
      have ha : a = [] := by cases a <;> simp_all
      subst ha
      simp at h1
      subst h1
      exact h3
  | cons c cs ih =>
    rw [show starLoop k (c :: cs) = (k (c :: cs) || (!isLineTerminator c && starLoop k cs)) from rfl]
    simp [ih]
    constructor
    · rintro (h | ⟨hlt, a, b, h1, h2, h3⟩)
      · exact ⟨[], c :: cs, by simp, by simp, h⟩
      · exact ⟨c :: a, b, by simp [h1], by simpa [hlt] using h2, h3⟩
    · rintro ⟨a, b, h1, h2, h3⟩
      cases a with
      | nil =>
        simp at h1
        subst h1
        exact Or.inl h3
      | cons a0 a' =>
        simp at h1
        obtain ⟨ha0, hcs⟩ := h1
        subst ha0
        right
        refine ⟨by simpa using h2 c (by simp), a', b, hcs, ?_, h3⟩
        intro x hx
        exact h2 x (by simp [hx])

theorem globSpec_star_elim {ps cs : List Char} (h : GlobSpec ('*' :: ps) cs) :
    ∃ a b, cs = a ++ b ∧ (∀ c ∈ a, isLineTerminator c = false) ∧ GlobSpec ps b := by
  generalize hq : '*' :: ps = qs at h
  induction h with
  | nil => simp at hq
  | star_skip h ih =>
    rename_i ps' cs'
    have h1 : ps' = ps := by injection hq with _ h2; exact h2.symm
    subst h1
    exact ⟨[], cs', by simp, by simp, h⟩
  | star_take hlt h ih =>
    rename_i ps' c cs'
    obtain ⟨a, b, h1, h2, h3⟩ := ih hq
    refine ⟨c :: a, b, by simp [h1], ?_, h3⟩
    intro x hx
    simp at hx
    rcases hx with hx | hx
    · subst hx; exact hlt
    · exact h2 x hx
  | one hlt h ih =>
    exfalso
    have hcontra : '*' = '?' := by injection hq
    simp at hcontra
  | lit hp hq' h ih =>
    exfalso
    apply hp
    injection hq with h1
    exact h1.symm

theorem globSpec_star_intro {ps : List Char} {a b : List Char}
    (ha : ∀ c ∈ a, isLineTerminator c = false) (hb : GlobSpec ps b) :
    GlobSpec ('*' :: ps) (a ++ b) := by
  induction a with
  | nil => exact GlobSpec.star_skip hb
  | cons c a ih =>
    exact GlobSpec.star_take (ha c (by simp))
      (ih (fun x hx => ha x (by simp [hx])))

theorem globMatch_iff_globSpec (ps cs : List Char) :
    globMatch ps cs = true ↔ GlobSpec ps cs := by
  induction ps generalizing cs with
  | nil =>
    simp [globMatch]
    constructor
    · intro h
      subst h
      exact GlobSpec.nil
    · intro h
      cases h
      rfl
  | cons p ps ih =>
    by_cases hstar : p = '*'
    · subst hstar
      rw [globMatch, if_pos rfl, starLoop_iff]
      constructor
      · rintro ⟨a, b, h1, h2, h3⟩
        subst h1
        exact globSpec_star_intro h2 ((ih b).mp h3)
      · intro h
        obtain ⟨a, b, h1, h2, h3⟩ := globSpec_star_elim h
        exact ⟨a, b, h1, h2, (ih b).mpr h3⟩
    · rw [globMatch, if_neg hstar]
      cases cs with
      | nil =>
        rw [show globStep (globMatch ps) p [] = false from rfl]
        simp
        intro h
        cases h with
        | star_skip h => exact hstar rfl
      | cons c cs' =>
        by_cases hq : p = '?'
        · subst hq
          rw [show globStep (globMatch ps) '?' (c :: cs') =
                (!isLineTerminator c && globMatch ps cs') from by rw [globStep, if_pos rfl]]
          constructor
          · intro h
            simp at h
            exact GlobSpec.one (by simpa using h.1) ((ih cs').mp h.2)
          · intro h
            cases h with
            | one hlt h => simp [hlt, (ih cs').mpr h]
            | lit h1 h2 h => exact absurd rfl h2
        · rw [show globStep (globMatch ps) p (c :: cs') =
                ((p == c) && globMatch ps cs') from by rw [globStep, if_neg hq]]
          constructor
          · intro h
            simp at h
            obtain ⟨h1, h2⟩ := h
            subst h1
            exact GlobSpec.lit hstar hq ((ih cs').mp h2)
          · intro h
            cases h with
            | star_skip h => exact absurd rfl hstar
            | star_take hlt h => exact absurd rfl hstar
            | one hlt h => exact absurd rfl hq
            | lit h1 h2 h => simp [(ih cs').mpr h]

/-- C5 counterexample: the claim states that the star wildcard matches
zero or more arbitrary characters, so the whole-name match of "a\nb"
against "*" would be true; the code translates the star to a JavaScript
dot-star, and the JavaScript dot never matches a newline, so fnmatch
returns false. -/
theorem fnmatch_star_newline_cex :
    fnmatch "a\nb" "*" = false ∧ GlobSpecAny ['*'] ['a', '\n', 'b'] :=
  ⟨by decide,
   GlobSpecAny.star_take (GlobSpecAny.star_take
     (GlobSpecAny.star_take (GlobSpecAny.star_skip GlobSpecAny.nil)))⟩

/-- C5 (amended): fnmatch(name, pattern) returns true iff the whole
name, anchored at both ends and case-sensitively, matches the pattern
where the star matches zero or more characters none of which is a line
terminator, the question mark matches exactly one character that is not
a line terminator, and every other character matches itself literally;
the four concrete examples of the claim all hold. -/
theorem fnmatch_glob_semantics :
    (∀ name pattern : String,
        fnmatch name pattern = true ↔ GlobSpec pattern.data name.data)
    ∧ fnmatch "file.txt" "*.txt" = true
    ∧ fnmatch "file.txt" "*.md" = false
    ∧ fnmatch "a.js" "?.js" = true
    ∧ fnmatch "ab.js" "?.js" = false :=
  ⟨fun name pattern => globMatch_iff_globSpec pattern.data name.data,
   by decide, by decide, by decide, by decide⟩

/-! ## Line numbering (src/utils.ts, addLineNumbers)

The JavaScript splits the content on the newline character, pads each
one-based line number on the left with spaces to the width of the total
line count, prefixes each line with the padded number and two spaces,
and joins with newlines.  `splitNl` and `joinNl` are the charwise
renderings of `String.prototype.split` with separator newline and
`Array.prototype.join` with separator newline; `numberLines` renders the
indexed map over the line array. -/

/-- Prepends a character to the first piece of a split result.  The
empty case is unreachable because `splitNl` never returns an empty
list. -/
def consToHead (c : Char) : List (List Char) → List (List Char)
  | [] => [[c]]
  | l :: ls => (c :: l) :: ls

def splitNl : List Char → List (List Char)
  | [] => [[]]
  | c :: rest =>
    if c = '\n' then [] :: splitNl rest else consToHead c (splitNl rest)

def joinNl : List (List Char) → List Char
  | [] => []
  | [l] => l
  | l :: ls => l ++ '\n' :: joinNl ls

def splitLines (s : String) : List String :=
  (splitNl s.data).map String.mk

def joinLines (ls : List String) : String :=
  String.mk (joinNl (ls.map String.data))

/-- Embedding of the JavaScript `String.prototype.padStart` with a space
as pad character, as used in addLineNumbers. -/
def padStart (s : String) (w : Nat) : String :=
  String.mk (List.replicate (w - s.length) ' ') ++ s

/-- The indexed map of addLineNumbers: element at offset `j` of the
input list receives the padded decimal of `i + j + 1`, where `i` counts
the elements already consumed. -/
def numberLines (padding : Nat) (i : Nat) : List String → List String
  | [] => []
  | l :: ls =>
      (padStart (toString (i + 1)) padding ++ "  " ++ l)
        :: numberLines padding (i + 1) ls

/-- Embedding of `addLineNumbers(content)` from src/utils.ts. -/
def addLineNumbers (content : String) : String :=
  let lines := splitLines content
  if lines.length == 0 then ""
  else joinLines (numberLines (toString lines.length).length 0 lines)

theorem splitNl_ne_nil (l : List Char) : splitNl l ≠ [] := by
  cases l with
  | nil => simp [splitNl]
  | cons c rest =>
    rw [splitNl]
    split
    · simp
    · cases h : splitNl rest <;> simp [consToHead]

theorem splitNl_no_newline (l : List Char) : ∀ x ∈ splitNl l, '\n' ∉ x := by
  induction l with
  | nil => simp [splitNl]
  | cons c rest ih =>
    intro x hx
    rw [splitNl] at hx
    by_cases hc : c = '\n'
    · rw [if_pos hc] at hx
      rcases List.mem_cons.mp hx with hx | hx
      · subst hx; simp
      · exact ih x hx
    · rw [if_neg hc] at hx
      rcases h : splitNl rest with _ | ⟨y, ys⟩
      · exact absurd h (splitNl_ne_nil rest)
      · rw [h, consToHead] at hx
        rcases List.mem_cons.mp hx with hx | hx
        · subst hx
          intro hmem
          rcases List.mem_cons.mp hmem with hmem | hmem
          · exact hc hmem.symm
          · exact ih y (by simp [h]) hmem
        · exact ih x (by simp [h, hx])

theorem splitNl_of_no_newline {l : List Char} (h : '\n' ∉ l) : splitNl l = [l] := by
  induction l with
  | nil => simp [splitNl]
  | cons c rest ih =>
    have hc : c ≠ '\n' := fun hc => h (by simp [hc])
    have hrest : '\n' ∉ rest := fun hr => h (by simp [hr])
    rw [splitNl, if_neg hc, ih hrest, consToHead]

theorem splitNl_append_newline {l : List Char} (rest : List Char) (h : '\n' ∉ l) :
    splitNl (l ++ '\n' :: rest) = l :: splitNl rest := by
  induction l with
  | nil =>
    simp only [List.nil_append]
    rw [splitNl, if_pos rfl]
  | cons c l ih =>
    have hc : c ≠ '\n' := fun hc => h (by simp [hc])
    have hl : '\n' ∉ l := fun hr => h (by simp [hr])
    simp only [List.cons_append]
    rw [splitNl, if_neg hc, ih hl, consToHead]

theorem splitNl_joinNl {ls : List (List Char)} (hne : ls ≠ [])
    (h : ∀ x ∈ ls, '\n' ∉ x) : splitNl (joinNl ls) = ls := by
  induction ls with
  | nil => exact absurd rfl hne
  | cons l ls ih =>
    cases ls with
    | nil =>
      rw [show joinNl [l] = l from rfl]
      exact splitNl_of_no_newline (h l (by simp))
    | cons m ms =>
      rw [show joinNl (l :: m :: ms) = l ++ '\n' :: joinNl (m :: ms) from rfl]
      rw [splitNl_append_newline _ (h l (by simp))]
      rw [ih (by simp) (fun x hx => h x (by simp [hx]))]

theorem string_data_append (s t : String) : (s ++ t).data = s.data ++ t.data := rfl

theorem string_data_mk (l : List Char) : (String.mk l).data = l := rfl

theorem string_mk_data (s : String) : String.mk s.data = s := rfl

theorem digitChar_ne_newline (m : Nat) : Nat.digitChar m ≠ '\n' := by
  rcases Nat.lt_or_ge m 16 with h | h
  · interval_cases m <;> decide
  · have hne : ∀ k, k < 16 → ¬ m = k := by omega
    unfold Nat.digitChar
    rw [if_neg (hne 0 (by norm_num)), if_neg (hne 1 (by norm_num)),
        if_neg (hne 2 (by norm_num)), if_neg (hne 3 (by norm_num)),
        if_neg (hne 4 (by norm_num)), if_neg (hne 5 (by norm_num)),
        if_neg (hne 6 (by norm_num)), if_neg (hne 7 (by norm_num)),
        if_neg (hne 8 (by norm_num)), if_neg (hne 9 (by norm_num)),
        if_neg (hne 10 (by norm_num)), if_neg (hne 11 (by norm_num)),
        if_neg (hne 12 (by norm_num)), if_neg (hne 13 (by norm_num)),
        if_neg (hne 14 (by norm_num)), if_neg (hne 15 (by norm_num))]
    decide

theorem toDigitsCore_ne_newline (fuel : Nat) : ∀ (n : Nat) (acc : List Char),
    (∀ c ∈ acc, c ≠ '\n') → ∀ c ∈ Nat.toDigitsCore 10 fuel n acc, c ≠ '\n' := by
  induction fuel with
  | zero =>
    intro n acc hacc c hc
    rw [Nat.toDigitsCore] at hc
    exact hacc c hc
  | succ fuel ih =>
    intro n acc hacc c hc
    rw [Nat.toDigitsCore] at hc
    split at hc
    · rcases List.mem_cons.mp hc with hc | hc
      · subst hc; exact digitChar_ne_newline _
      · exact hacc c hc
    · refine ih _ _ ?_ c hc
      intro x hx
      rcases List.mem_cons.mp hx with hx | hx
      · subst hx; exact digitChar_ne_newline _
      · exact hacc x hx

theorem toString_nat_ne_newline (n : Nat) : '\n' ∉ (toString n).data := by
  have h1 : (toString n).data = Nat.toDigitsCore 10 (n + 1) n [] := rfl
  rw [h1]
  intro h
  exact toDigitsCore_ne_newline (n + 1) n [] (by simp) '\n' h rfl

theorem numberLines_length (w : Nat) (ls : List String) :
    ∀ i, (numberLines w i ls).length = ls.length := by
  induction ls with
  | nil => intro i; rfl
  | cons l ls ih => intro i; simp [numberLines, ih]

theorem numberLines_getD (w : Nat) (ls : List String) :
    ∀ i j, j < ls.length →
      (numberLines w i ls).getD j "" =
        padStart (toString (i + j + 1)) w ++ "  " ++ ls.getD j "" := by
  induction ls with
  | nil => intro i j h; simp at h
  | cons l ls ih =>
    intro i j hj
    cases j with
    | zero => rfl
    | succ j =>
      have h2 := ih (i + 1) j (by simpa using hj)
      rw [show numberLines w i (l :: ls) =
            (padStart (toString (i + 1)) w ++ "  " ++ l)
              :: numberLines w (i + 1) ls from rfl]
      rw [List.getD_cons_succ, List.getD_cons_succ, h2,
        show i + 1 + j + 1 = i + (j + 1) + 1 from by omega]

theorem numberLines_no_newline (w : Nat) (ls : List String)
    (h : ∀ x ∈ ls, '\n' ∉ x.data) :
    ∀ i, ∀ x ∈ numberLines w i ls, '\n' ∉ x.data := by
  induction ls with
  | nil => intro i x hx; simp [numberLines] at hx
  | cons l ls ih =>
    intro i x hx
    rw [numberLines] at hx
    rcases List.mem_cons.mp hx with hx | hx
    · subst hx
      rw [string_data_append, string_data_append]
      intro hmem
      rcases List.mem_append.mp hmem with hm | hm
      · rcases List.mem_append.mp hm with hm | hm
        · rw [show (padStart (toString (i + 1)) w).data =
                List.replicate (w - (toString (i + 1)).length) ' '
                  ++ (toString (i + 1)).data from rfl] at hm
          rcases List.mem_append.mp hm with hm | hm
          · have := List.eq_of_mem_replicate hm
            simp at this
          · exact toString_nat_ne_newline (i + 1) hm
        · simp [show ("  " : String).data = [' ', ' '] from rfl] at hm
      · exact h l (by simp) hm
    · exact ih (fun x hx => h x (by simp [hx])) (i + 1) x hx

theorem splitLines_joinLines {ls : List String} (hne : ls ≠ [])
    (h : ∀ x ∈ ls, '\n' ∉ x.data) : splitLines (joinLines ls) = ls := by
  unfold splitLines joinLines
  rw [string_data_mk]
  rw [splitNl_joinNl (by simpa using hne) ?cond]
  case cond =>
    intro x hx
    rcases List.mem_map.mp hx with ⟨y, hy, hxy⟩
    subst hxy
    exact h y hy
  rw [List.map_map]
  have : (String.mk ∘ String.data) = id := by
    funext s
    exact string_mk_data s
  rw [this, List.map_id]

theorem splitLines_ne_nil (s : String) : splitLines s ≠ [] := by
  unfold splitLines
  simp
  exact splitNl_ne_nil _

theorem splitLines_no_newline (s : String) : ∀ x ∈ splitLines s, '\n' ∉ x.data := by
  intro x hx
  unfold splitLines at hx
  rcases List.mem_map.mp hx with ⟨y, hy, hxy⟩
  subst hxy
  rw [string_data_mk]
  exact splitNl_no_newline _ y hy

theorem addLineNumbers_step (content : String) :
    addLineNumbers content =
      joinLines (numberLines (toString (splitLines content).length).length 0
        (splitLines content)) := by
  rw [show addLineNumbers content =
        (if (splitLines content).length == 0 then ""
         else joinLines (numberLines (toString (splitLines content).length).length 0
           (splitLines content))) from rfl]
  rw [if_neg]
  simp only [beq_iff_eq]
  simp [List.length_eq_zero]
  exact splitLines_ne_nil content

/-- C6: addLineNumbers splits on the newline character, left-pads each
one-based line number with spaces to the decimal-digit width of the
total line count, prefixes each line with the padded number and two
spaces, and rejoins with newlines: re-splitting the output yields
exactly as many lines as the input had, line j of the output is the
padded decimal of j + 1, two spaces, then line j of the input, and the
two concrete examples of the claim hold. -/
theorem addLineNumbers_correct :
    (∀ content : String,
        (splitLines (addLineNumbers content)).length = (splitLines content).length
        ∧ ∀ j, j < (splitLines content).length →
            (splitLines (addLineNumbers content)).getD j "" =
              padStart (toString (j + 1)) (toString (splitLines content).length).length
                ++ "  " ++ (splitLines content).getD j "")
    ∧ addLineNumbers "hello" = "1  hello"
    ∧ addLineNumbers "a\nb\nc\nd\ne\nf\ng\nh\ni\nj" =
        " 1  a\n 2  b\n 3  c\n 4  d\n 5  e\n 6  f\n 7  g\n 8  h\n 9  i\n10  j" := by
  refine ⟨?_, by decide, by decide⟩
  intro content
  rw [addLineNumbers_step]
  rw [splitLines_joinLines ?ne ?nl]
  case ne =>
    intro hcontra
    have := numberLines_length (toString (splitLines content).length).length
      (splitLines content) 0
    rw [hcontra] at this
    exact splitLines_ne_nil content (List.length_eq_zero.mp this.symm)
  case nl =>
    exact numberLines_no_newline _ _ (splitLines_no_newline content) 0
  constructor
  · exact numberLines_length _ _ 0
  · intro j hj
    have := numberLines_getD (toString (splitLines content).length).length
      (splitLines content) 0 j hj
    simpa using this

/-- C6 witness: the general clause of addLineNumbers_correct evaluated
at the concrete content "a\nb" and line offset 1. -/
theorem addLineNumbers_correct_witness :
    (splitLines (addLineNumbers "a\nb")).getD 1 "" = "2  b" := by
  have h := (addLineNumbers_correct.1 "a\nb").2 1 (by decide)
  rw [h]
  decide

/-! ## Paths

The walker builds paths by joining a directory path and an entry name
with a slash, and the rule engine and binary detector take basenames and
extensions.  `baseNameCh` renders the Node basename (the part after the
last slash; the repository never builds paths with trailing slashes) and
`extnameCh` renders the Node extname rule: the extension starts at the
last dot of the basename, except that a dot at index zero (a dotfile)
does not start an extension; the name dot-dot has no extension. -/

def baseNameCh (l : List Char) : List Char :=
  (l.reverse.takeWhile (fun c => c ≠ '/')).reverse

def basename (p : String) : String :=
  String.mk (baseNameCh p.data)

/-- The suffix of `l` starting at its last dot, when `l` has a dot. -/
def extAfterLastDot : List Char → Option (List Char)
  | [] => none
  | c :: rest =>
    match extAfterLastDot rest with
    | some e => some e
    | none => if c = '.' then some (c :: rest) else none

def extnameCh (b : List Char) : List Char :=
  if b = ['.', '.'] then []
  else
    match b with
    | [] => []
    | _ :: rest =>
      match extAfterLastDot rest with
      | some e => e
      | none => []

/-- Embedding of `path.extname(p)`. -/
def extname (p : String) : String :=
  String.mk (extnameCh (baseNameCh p.data))

/-- ASCII lowering, the fragment of `String.prototype.toLowerCase` that
the extension keys exercise. -/
def asciiLower (c : Char) : Char :=
  if 'A' ≤ c ∧ c ≤ 'Z' then Char.ofNat (c.toNat + 32) else c

/-! ## Binary detection (src/utils.ts) -/

/-- The fixed binary extension set BINARY_EXTENSIONS of src/utils.ts. -/
def BINARY_EXTENSIONS : List String :=
  ["jpg", "jpeg", "png", "gif", "bmp", "webp", "ico", "tif", "tiff", "psd",
   "svg", "heic", "heif", "avif",
   "mp4", "m4v", "mov", "avi", "wmv", "mkv", "flv", "webm", "3gp", "3g2",
   "mp3", "wav", "flac", "aac", "ogg", "oga", "m4a", "opus", "mid", "midi",
   "pdf",
   "zip", "tar", "gz", "bz2", "xz", "7z", "rar", "iso", "dmg", "tgz",
   "tbz2", "txz",
   "ttf", "otf", "woff", "woff2", "eot",
   "exe", "dll", "so", "o", "a", "bin", "dat", "class", "jar", "wasm",
   "sqlite", "db", "realm"]

/-- The extension lookup key: `path.extname(p).slice(1).toLowerCase()`. -/
def extKey (p : String) : String :=
  String.mk (((extnameCh (baseNameCh p.data)).drop 1).map asciiLower)

/-- A byte the isBinaryBuffer loop counts as suspicious:
`c < 7 || (c > 13 && c < 32) || c > 127`. -/
def suspiciousByte (c : Nat) : Bool :=
  c < 7 || (13 < c && c < 32) || c > 127

/-- The scan loop of isBinaryBuffer: a NUL byte returns true at once; a
suspicious byte bumps the counter and returns true as soon as the count
exceeds thirty percent of the sample length.  The JavaScript compares
the float quotient suspicious / len against the literal 0.3; for the
sample lengths that occur (at most 512) that comparison is exactly the
integer comparison 10 * suspicious > 3 * len, which is how it is
rendered here. -/
def binSniffLoop (len : Nat) : List Nat → Nat → Bool
  | [], _ => false
  | c :: rest, susp =>
    if c = 0 then true
    else if suspiciousByte c then
      if 10 * (susp + 1) > 3 * len then true
      else binSniffLoop len rest (susp + 1)
    else binSniffLoop len rest susp

/-- Embedding of `isBinaryBuffer(buf)` from src/utils.ts. -/
def isBinaryBuffer (buf : List Nat) : Bool :=
  binSniffLoop (min buf.length 512) (buf.take 512) 0

/-- Observable filesystem actions of one walk; the traces the claims
quantify over. -/
inductive WalkEvent where
  | gitignoreRead (p : String)
  | sniffed (p : String)
  | readContent (p : String)
  | emitted (p : String) (display : String) (content : String)
  | warned (p : String)
deriving DecidableEq, Repr

/-- Embedding of `isBinaryFile(fullPath)` from src/utils.ts.  `sniff` is
what opening the file and reading its first bytes returns, `none` when
the open or read throws.  The returned event list records whether the
file was opened: when the extension is in the fixed set the source
returns before touching the filesystem. -/
def isBinaryFile (fullPath : String) (sniff : Option (List Nat)) :
    List WalkEvent × Bool :=
  if extKey fullPath != "" && BINARY_EXTENSIONS.contains (extKey fullPath) then
    ([], true)
  else
    match sniff with
    | none => ([WalkEvent.sniffed fullPath], false)
    | some bytes => ([WalkEvent.sniffed fullPath], isBinaryBuffer bytes)

theorem takeWhile_of_all {p : Nat → Bool} {l : List Nat}
    (h : ∀ a ∈ l, p a = true) : l.takeWhile p = l := by
  induction l with
  | nil => rfl
  | cons c rest ih =>
    rw [List.takeWhile_cons, if_pos (h c (by simp))]
    rw [ih (fun a ha => h a (by simp [ha]))]

theorem binSniffLoop_eq (len : Nat) (l : List Nat) : ∀ susp : Nat,
    10 * susp ≤ 3 * len →
    binSniffLoop len l susp =
      (l.any (· == 0) ||
        decide (10 * (susp + (l.takeWhile (fun c => c ≠ 0)).countP suspiciousByte)
          > 3 * len)) := by
  induction l with
  | nil =>
    intro susp hsusp
    simp [binSniffLoop]
    omega
  | cons c rest ih =>
    intro susp hsusp
    rw [binSniffLoop]
    by_cases hc : c = 0
    · subst hc
      simp
    · rw [if_neg hc]
      have hany : ((c :: rest).any (· == 0)) = (rest.any (· == 0)) := by
        simp [hc]
      have htw : (c :: rest).takeWhile (fun c => c ≠ 0)
          = c :: rest.takeWhile (fun c => c ≠ 0) := by
        rw [List.takeWhile_cons, if_pos (by simpa using hc)]
      by_cases hs : suspiciousByte c = true
      · rw [if_pos hs]
        rw [hany, htw, List.countP_cons, if_pos hs]
        by_cases hth : 10 * (susp + 1) > 3 * len
        · rw [if_pos hth]
          symm
          simp only [Bool.or_eq_true, decide_eq_true_eq]
          right
          omega
        · rw [if_neg hth, ih (susp + 1) (by omega)]
          have harith : susp + 1 + (rest.takeWhile (fun c => c ≠ 0)).countP suspiciousByte
              = susp + ((rest.takeWhile (fun c => c ≠ 0)).countP suspiciousByte + 1) := by
            omega
          rw [harith]
      · rw [if_neg hs]
        rw [hany, htw, List.countP_cons, if_neg hs, ih susp hsusp]
        simp

theorem isBinaryBuffer_iff (buf : List Nat) :
    isBinaryBuffer buf =
      ((buf.take 512).any (· == 0) ||
        decide (10 * ((buf.take 512).countP suspiciousByte)
          > 3 * (buf.take 512).length)) := by
  rw [isBinaryBuffer]
  have hlen : min buf.length 512 = (buf.take 512).length := by
    rw [List.length_take]
    omega
  rw [hlen, binSniffLoop_eq _ _ 0 (by omega)]
  by_cases hn : (buf.take 512).any (· == 0) = true
  · simp [hn]
  · have hall : ∀ a ∈ buf.take 512, (decide (a ≠ 0)) = true := by
      intro a ha
      by_contra hcontra
      simp at hcontra
      subst hcontra
      exact hn (List.any_eq_true.mpr ⟨0, ha, rfl⟩)
    rw [takeWhile_of_all hall]
    simp only [Nat.zero_add]

/-- The permissive text range as the spec words it: bytes 7 through 13
(bell, backspace, tab, newline, vertical tab, form feed, carriage
return) and 32 through 127 (printable ASCII and delete); everything
else, in particular every byte of at least 128 and the remaining control
bytes below 32, is outside it. -/
def isTexty (c : Nat) : Bool :=
  (7 ≤ c && c ≤ 13) || (32 ≤ c && c ≤ 127)

theorem suspicious_iff_not_texty (c : Nat) : suspiciousByte c = !isTexty c := by
  rw [Bool.eq_iff_iff]
  simp [suspiciousByte, isTexty]
  omega

/-- C8: a path whose extension key is in the fixed binary set is
classified binary with no open of the file (the verdict is the same for
every sniff outcome and the trace is empty); otherwise the file is
opened, a failed open classifies as not binary, and a successful sniff
classifies as binary iff a NUL byte appears among the first 512 bytes or
the suspicious bytes among them exceed thirty percent of the sample,
where suspicious is exactly the complement of the permissive text range;
the concrete cases: a png file with text bytes is binary by extension
alone, an unknown extension with a NUL byte is binary, and a plain text
sample is not. -/
theorem isBinaryFile_correct :
    (∀ p s, (extKey p != "" && BINARY_EXTENSIONS.contains (extKey p)) = true →
        isBinaryFile p s = ([], true))
    ∧ (∀ p, (extKey p != "" && BINARY_EXTENSIONS.contains (extKey p)) = false →
        isBinaryFile p none = ([WalkEvent.sniffed p], false))
    ∧ (∀ p bytes, (extKey p != "" && BINARY_EXTENSIONS.contains (extKey p)) = false →
        isBinaryFile p (some bytes) =
          ([WalkEvent.sniffed p],
            ((bytes.take 512).any (· == 0) ||
              decide (10 * ((bytes.take 512).countP suspiciousByte)
                > 3 * (bytes.take 512).length))))
    ∧ (∀ c, suspiciousByte c = !isTexty c)
    ∧ extKey "photo.PNG" = "png"
    ∧ isBinaryFile "photo.PNG" (some [104, 101, 108, 108, 111]) = ([], true)
    ∧ (isBinaryFile "file.xyz" (some [104, 105, 0, 106])).2 = true
    ∧ (isBinaryFile "notes.xyz" (some [104, 101, 108, 108, 111, 10, 119, 111, 114, 108, 100])).2 = false := by
  refine ⟨?_, ?_, ?_, suspicious_iff_not_texty, by decide, by decide, by decide, by decide⟩
  · intro p s h
    cases s with
    | none => rw [isBinaryFile, if_pos h]
    | some bytes => rw [isBinaryFile, if_pos h]
  · intro p h
    rw [isBinaryFile, if_neg (by rw [h]; simp)]
  · intro p bytes h
    rw [isBinaryFile, if_neg (by rw [h]; simp), isBinaryBuffer_iff]

/-- C8 witness: the extension clause applied at a concrete png path with
clearly textual sniffed bytes, and the sniff clause applied at a path
with no recognized extension. -/
theorem isBinaryFile_correct_witness :
    isBinaryFile "a/photo.PNG" (some [104, 105]) = ([], true)
    ∧ isBinaryFile "a/notes.xyz" none = ([WalkEvent.sniffed "a/notes.xyz"], false) :=
  ⟨isBinaryFile_correct.1 "a/photo.PNG" (some [104, 105]) (by decide),
   isBinaryFile_correct.2.1 "a/notes.xyz" (by decide)⟩

/-! ## Document emission (src/printing.ts)

The printers receive a writer that is called once per output line, and
share one mutable document counter, reset by resetDocumentIndex.  An
emission is modelled as the list of lines written, and the counter as an
explicit state value threaded through the calls. -/

/-- The fixed extension-to-language table EXT_TO_LANG of src/utils.ts. -/
def EXT_TO_LANG : List (String × String) :=
  [("py", "python"), ("c", "c"), ("cpp", "cpp"), ("java", "java"),
   ("js", "javascript"), ("ts", "typescript"), ("html", "html"),
   ("css", "css"), ("xml", "xml"), ("json", "json"), ("yaml", "yaml"),
   ("yml", "yaml"), ("sh", "bash"), ("rb", "ruby"), ("md", "markdown"),
   ("txt", "text"), ("csv", "csv"), ("jsonl", "jsonl"), ("pl", "perl")]

/-- The language tag: the table entry for the extension, or the empty
string for an unknown extension. -/
def extLang (ext : String) : String :=
  match EXT_TO_LANG.find? (fun kv => kv.1 == ext) with
  | some kv => kv.2
  | none => ""

structure EmitState where
  globalIndex : Nat
deriving DecidableEq, Repr

/-- Embedding of `resetDocumentIndex()`. -/
def resetDocumentIndex : EmitState := ⟨1⟩

/-- `writeMultiLine`: split on the newline and write each piece as one
line. -/
def writeMultiLine (content : String) : List String :=
  splitLines content

/-- One character of the JSON string escaping performed by
`JSON.stringify` on the content and source fields. -/
def jsonEscapeChar (c : Char) : List Char :=
  if c = '"' then ['\\', '"']
  else if c = '\\' then ['\\', '\\']
  else if c = '\x08' then ['\\', 'b']
  else if c = '\x0c' then ['\\', 'f']
  else if c = '\n' then ['\\', 'n']
  else if c = '\r' then ['\\', 'r']
  else if c = '\t' then ['\\', 't']
  else if c.toNat < 32 then
    ['\\', 'u', '0', '0', Nat.digitChar (c.toNat / 16), Nat.digitChar (c.toNat % 16)]
  else [c]

def jsonQuote (s : String) : String :=
  String.mk ('"' :: ((s.data.map jsonEscapeChar).flatten ++ ['"']))

/-- Embedding of `printAsJson`: one line holding the stringified object
with the keys index, source, content in insertion order, then the bump
of the shared counter. -/
def printAsJson (st : EmitState) (filePath content : String)
    (lineNumbers : Bool) : List String × EmitState :=
  let content2 := if lineNumbers then addLineNumbers content else content
  (["\x7b\"index\":" ++ toString st.globalIndex ++ ",\"source\":"
      ++ jsonQuote filePath ++ ",\"content\":" ++ jsonQuote content2 ++ "\x7d"],
   ⟨st.globalIndex + 1⟩)

/-- Embedding of `printDefault`; it does not touch the counter. -/
def printDefault (filePath content : String) (lineNumbers : Bool) : List String :=
  [filePath, "---"]
    ++ writeMultiLine (if lineNumbers then addLineNumbers content else content)
    ++ ["", "---"]

/-- Embedding of `printAsXml`: the indexed document block, then the bump
of the shared counter. -/
def printAsXml (st : EmitState) (filePath content : String)
    (lineNumbers : Bool) : List String × EmitState :=
  (["<document index=\"" ++ toString st.globalIndex ++ "\">",
    "<source>" ++ filePath ++ "</source>",
    "<document_content>"]
    ++ writeMultiLine (if lineNumbers then addLineNumbers content else content)
    ++ ["</document_content>", "</document>"],
   ⟨st.globalIndex + 1⟩)

/-- The fence-growing loop of `printAsMarkdown`: start from three
backticks and add one backtick while the content still contains the
candidate fence. -/
def growFence (content : List Char) (fence : List Char) : List Char :=
  if containsSub content fence then growFence content (fence ++ ['`']) else fence
termination_by content.length + 1 - fence.length
decreasing_by
  rename_i h
  have := containsSub_length h
  simp
  omega

/-- Embedding of `printAsMarkdown`; it does not touch the counter.  The
language tag comes from the extension key and the fence is grown against
the original content (the source checks the collision before applying
line numbering). -/
def printAsMarkdown (filePath content : String) (lineNumbers : Bool) : List String :=
  [filePath,
   String.mk (growFence content.data ['`', '`', '`']) ++ extLang (extKey filePath)]
  ++ writeMultiLine (if lineNumbers then addLineNumbers content else content)
  ++ [String.mk (growFence content.data ['`', '`', '`'])]

/-- Embedding of `printPath`: xml wins over markdown, otherwise the
default format. -/
def printPath (st : EmitState) (filePath content : String)
    (cxml markdown lineNumbers : Bool) : List String × EmitState :=
  if cxml then printAsXml st filePath content lineNumbers
  else if markdown then (printAsMarkdown filePath content lineNumbers, st)
  else (printDefault filePath content lineNumbers, st)

/-- One run of the emitter over a list of (path, content) documents, as
the walker drives it: printAsJson when the json flag is set, printPath
otherwise.  Returns the per-document line blocks and the final counter
state. -/
def emitRun (useJson cxml markdown lineNumbers : Bool) :
    List (String × String) → EmitState → List (List String) × EmitState
  | [], st => ([], st)
  | (p, c) :: rest, st =>
    let out := if useJson then printAsJson st p c lineNumbers
               else printPath st p c cxml markdown lineNumbers
    let next := emitRun useJson cxml markdown lineNumbers rest out.2
    (out.1 :: next.1, next.2)

theorem emitState_eta (st : EmitState) : (⟨st.globalIndex⟩ : EmitState) = st := rfl

theorem emitRun_json_spec (cxml markdown lineNumbers : Bool)
    (docs : List (String × String)) : ∀ st : EmitState,
    (emitRun true cxml markdown lineNumbers docs st).1 =
      List.zipWith (fun i (d : String × String) => (printAsJson ⟨i⟩ d.1 d.2 lineNumbers).1)
        (List.range' st.globalIndex docs.length) docs
    ∧ (emitRun true cxml markdown lineNumbers docs st).2 =
        ⟨st.globalIndex + docs.length⟩ := by
  induction docs with
  | nil => intro st; exact ⟨rfl, rfl⟩
  | cons d rest ih =>
    intro st
    obtain ⟨p, c⟩ := d
    have hstep : emitRun true cxml markdown lineNumbers ((p, c) :: rest) st
        = ((printAsJson st p c lineNumbers).1
            :: (emitRun true cxml markdown lineNumbers rest ⟨st.globalIndex + 1⟩).1,
           (emitRun true cxml markdown lineNumbers rest ⟨st.globalIndex + 1⟩).2) := rfl
    have hr : List.range' st.globalIndex (rest.length + 1)
        = st.globalIndex :: List.range' (st.globalIndex + 1) rest.length := rfl
    obtain ⟨ih1, ih2⟩ := ih ⟨st.globalIndex + 1⟩
    constructor
    · rw [hstep]
      simp only [List.length_cons, hr, List.zipWith_cons_cons]
      rw [show (⟨st.globalIndex⟩ : EmitState) = st from rfl]
      rw [ih1]
    · rw [hstep, ih2]
      rw [show (⟨st.globalIndex + 1⟩ : EmitState).globalIndex = st.globalIndex + 1 from rfl]
      congr 1
      simp only [List.length_cons]
      omega

theorem emitRun_xml_spec (markdown lineNumbers : Bool)
    (docs : List (String × String)) : ∀ st : EmitState,
    (emitRun false true markdown lineNumbers docs st).1 =
      List.zipWith (fun i (d : String × String) => (printAsXml ⟨i⟩ d.1 d.2 lineNumbers).1)
        (List.range' st.globalIndex docs.length) docs
    ∧ (emitRun false true markdown lineNumbers docs st).2 =
        ⟨st.globalIndex + docs.length⟩ := by
  induction docs with
  | nil => intro st; exact ⟨rfl, rfl⟩
  | cons d rest ih =>
    intro st
    obtain ⟨p, c⟩ := d
    have hstep : emitRun false true markdown lineNumbers ((p, c) :: rest) st
        = ((printAsXml st p c lineNumbers).1
            :: (emitRun false true markdown lineNumbers rest ⟨st.globalIndex + 1⟩).1,
           (emitRun false true markdown lineNumbers rest ⟨st.globalIndex + 1⟩).2) := rfl
    have hr : List.range' st.globalIndex (rest.length + 1)
        = st.globalIndex :: List.range' (st.globalIndex + 1) rest.length := rfl
    obtain ⟨ih1, ih2⟩ := ih ⟨st.globalIndex + 1⟩
    constructor
    · rw [hstep]
      simp only [List.length_cons, hr, List.zipWith_cons_cons]
      rw [show (⟨st.globalIndex⟩ : EmitState) = st from rfl]
      rw [ih1]
    · rw [hstep, ih2]
      rw [show (⟨st.globalIndex + 1⟩ : EmitState).globalIndex = st.globalIndex + 1 from rfl]
      congr 1
      simp only [List.length_cons]
      omega

/-- C2: after a reset the counter is one; printAsJson and printAsXml
each bump the shared counter by exactly one per emitted document and
stamp the current counter value into their output; a whole run in json
or xml mode therefore assigns the indices range(start, length), which
from a reset is one, two, three, gapless in emission order; and a second
run without a reset in between continues with one plus the length of the
first run. -/
theorem document_indices_correct :
    resetDocumentIndex.globalIndex = 1
    ∧ (∀ st p c ln, (printAsJson st p c ln).2.globalIndex = st.globalIndex + 1)
    ∧ (∀ st p c ln, (printAsXml st p c ln).2.globalIndex = st.globalIndex + 1)
    ∧ (∀ st p c ln, (printAsXml st p c ln).1.headD "" =
        "<document index=\"" ++ toString st.globalIndex ++ "\">")
    ∧ (∀ cxml markdown ln docs,
        (emitRun true cxml markdown ln docs resetDocumentIndex).1 =
          List.zipWith (fun i (d : String × String) => (printAsJson ⟨i⟩ d.1 d.2 ln).1)
            (List.range' 1 docs.length) docs)
    ∧ (∀ markdown ln docs,
        (emitRun false true markdown ln docs resetDocumentIndex).1 =
          List.zipWith (fun i (d : String × String) => (printAsXml ⟨i⟩ d.1 d.2 ln).1)
            (List.range' 1 docs.length) docs)
    ∧ (∀ cxml markdown ln docs1 docs2,
        (emitRun true cxml markdown ln docs2
            (emitRun true cxml markdown ln docs1 resetDocumentIndex).2).1 =
          List.zipWith (fun i (d : String × String) => (printAsJson ⟨i⟩ d.1 d.2 ln).1)
            (List.range' (1 + docs1.length) docs2.length) docs2)
    ∧ (∀ markdown ln docs1 docs2,
        (emitRun false true markdown ln docs2
            (emitRun false true markdown ln docs1 resetDocumentIndex).2).1 =
          List.zipWith (fun i (d : String × String) => (printAsXml ⟨i⟩ d.1 d.2 ln).1)
            (List.range' (1 + docs1.length) docs2.length) docs2) := by
  refine ⟨rfl, fun st p c ln => rfl, fun st p c ln => rfl, fun st p c ln => rfl,
    ?_, ?_, ?_, ?_⟩
  · intro cxml markdown ln docs
    exact (emitRun_json_spec cxml markdown ln docs resetDocumentIndex).1
  · intro markdown ln docs
    exact (emitRun_xml_spec markdown ln docs resetDocumentIndex).1
  · intro cxml markdown ln docs1 docs2
    rw [(emitRun_json_spec cxml markdown ln docs1 resetDocumentIndex).2]
    exact (emitRun_json_spec cxml markdown ln docs2 ⟨1 + docs1.length⟩).1
  · intro markdown ln docs1 docs2
    rw [(emitRun_xml_spec markdown ln docs1 resetDocumentIndex).2]
    exact (emitRun_xml_spec markdown ln docs2 ⟨1 + docs1.length⟩).1

theorem growFence_spec (content fence : List Char) :
    ∃ m, growFence content fence = fence ++ List.replicate m '`'
      ∧ containsSub content (fence ++ List.replicate m '`') = false
      ∧ ∀ j, j < m → containsSub content (fence ++ List.replicate j '`') = true := by
  rw [growFence]
  by_cases h : containsSub content fence = true
  · rw [if_pos h]
    obtain ⟨m, h1, h2, h3⟩ := growFence_spec content (fence ++ ['`'])
    refine ⟨m + 1, ?_, ?_, ?_⟩
    · rw [h1]
      simp [List.replicate_succ]
    · rw [show fence ++ List.replicate (m + 1) '`'
            = (fence ++ ['`']) ++ List.replicate m '`' from by
          simp [List.replicate_succ]]
      exact h2
    · intro j hj
      cases j with
      | zero => simpa using h
      | succ j =>
        rw [show fence ++ List.replicate (j + 1) '`'
              = (fence ++ ['`']) ++ List.replicate j '`' from by
            simp [List.replicate_succ]]
        exact h3 j (by omega)
  · rw [if_neg h]
    exact ⟨0, by simp, by simpa using Bool.eq_false_iff.mpr h, by omega⟩
termination_by content.length + 1 - fence.length
decreasing_by
  have := containsSub_length h
  simp
  omega

/-- C7: the markdown emission consists of the display path, an opening
fence of k backticks followed by the language tag looked up in the fixed
extension table (empty for an unknown extension), the content lines, and
a closing fence of k backticks, where k is at least three, a run of k
backticks does not occur in the content, and every shorter run of at
least three backticks does occur in it (so the fence is the shortest
collision-free run, grown one backtick at a time); concretely, content
with a three-backtick run gets a four-backtick fence, content with a
four-backtick run gets five, and an unknown extension gets an empty
language tag. -/
theorem printAsMarkdown_fence_correct :
    (∀ (filePath content : String) (lineNumbers : Bool), ∃ k,
        3 ≤ k
        ∧ printAsMarkdown filePath content lineNumbers =
            [filePath, String.mk (List.replicate k '`') ++ extLang (extKey filePath)]
              ++ writeMultiLine (if lineNumbers then addLineNumbers content else content)
              ++ [String.mk (List.replicate k '`')]
        ∧ containsSub content.data (List.replicate k '`') = false
        ∧ (∀ j, 3 ≤ j → j < k → containsSub content.data (List.replicate j '`') = true))
    ∧ printAsMarkdown "a.ts" "x```y" false = ["a.ts", "````typescript", "x```y", "````"]
    ∧ printAsMarkdown "a.ts" "x````y" false = ["a.ts", "`````typescript", "x````y", "`````"]
    ∧ printAsMarkdown "b.zzz" "hi" false = ["b.zzz", "```", "hi", "```"] := by
  have main : ∀ (filePath content : String) (lineNumbers : Bool), ∃ k,
      3 ≤ k
      ∧ printAsMarkdown filePath content lineNumbers =
          [filePath, String.mk (List.replicate k '`') ++ extLang (extKey filePath)]
            ++ writeMultiLine (if lineNumbers then addLineNumbers content else content)
            ++ [String.mk (List.replicate k '`')]
      ∧ containsSub content.data (List.replicate k '`') = false
      ∧ (∀ j, 3 ≤ j → j < k → containsSub content.data (List.replicate j '`') = true) := by
    intro filePath content lineNumbers
    obtain ⟨m, h1, h2, h3⟩ := growFence_spec content.data ['`', '`', '`']
    have hrep : ∀ n, (['`', '`', '`'] : List Char) ++ List.replicate n '`'
        = List.replicate (3 + n) '`' := by
      intro n
      rw [List.replicate_add]
      rfl
    refine ⟨3 + m, by omega, ?_, ?_, ?_⟩
    · rw [printAsMarkdown, h1, hrep m]
    · rw [← hrep m]
      exact h2
    · intro j hj3 hjk
      rw [show j = 3 + (j - 3) from by omega, ← hrep (j - 3)]
      exact h3 (j - 3) (by omega)
  refine ⟨main, ?_, ?_, ?_⟩
  · obtain ⟨k, hk3, heq, hnot, hall⟩ := main "a.ts" "x```y" false
    have hk : k = 4 := by
      by_contra hne
      rcases Nat.lt_or_ge k 4 with h4 | h4
      · have : k = 3 := by omega
        rw [this] at hnot
        exact absurd hnot (by decide)
      · have := hall 4 (by omega) (by omega)
        exact absurd this (by decide)
    rw [hk] at heq
    rw [heq]
    decide
  · obtain ⟨k, hk3, heq, hnot, hall⟩ := main "a.ts" "x````y" false
    have hk : k = 5 := by
      by_contra hne
      rcases Nat.lt_or_ge k 5 with h5 | h5
      · have h34 : k = 3 ∨ k = 4 := by omega
        rcases h34 with h | h <;> rw [h] at hnot <;> exact absurd hnot (by decide)
      · have := hall 5 (by omega) (by omega)
        exact absurd this (by decide)
    rw [hk] at heq
    rw [heq]
    decide
  · obtain ⟨k, hk3, heq, hnot, hall⟩ := main "b.zzz" "hi" false
    have hk : k = 3 := by
      by_contra hne
      have := hall 3 (by omega) (by omega)
      exact absurd this (by decide)
    rw [hk] at heq
    rw [heq]
    decide

/-! ## The directory walker (src/walker.ts)

The walker reads a live filesystem; here the tree is passed in as data.
A directory holds its file entries and its subdirectories, each in
enumeration (readdirSync) order; the source partitions one dirent list
into files and directories preserving relative order within each class,
and nothing it does afterwards depends on the interleaving, so the
partitioned form is taken as the model.  Each file entry carries what
the three filesystem touches of the source would return for it: the
bytes a binary sniff reads (`none` when the open throws), the stat size
(`none` when the stat throws), and the utf8 read outcome.  Every
observable action is recorded as a WalkEvent; paths are joined with a
slash as `path.join` does for plain names.

The mutable pieces of the source are threaded explicitly: the shared
gitignoreRules array (pushes inside a call stay visible to the caller
and to later siblings, exactly like the array reference), and the
counter object of WalkOptions (`none` when no counter was supplied).
The project-root matcher `ig` is modelled as the composed predicate
p maps-to ig.ignores(path.relative(cwd, p)), an external library. -/

inductive ReadResult where
  | ok (content : String)
  | enoent
  | err
deriving DecidableEq, Repr

structure FileData where
  sniff : Option (List Nat)
  size : Option Nat
  read : ReadResult
deriving DecidableEq, Repr

mutual
inductive FSTree where
  | node (files : List (String × FileData)) (dirs : FSForest)
inductive FSForest where
  | nil
  | cons (name : String) (t : FSTree) (rest : FSForest)
end

def FSTree.files : FSTree → List (String × FileData)
  | .node fs _ => fs

def FSTree.dirs : FSTree → FSForest
  | .node _ ds => ds

def FSForest.hasName : FSForest → String → Bool
  | .nil, _ => false
  | .cons n _ rest, m => n == m || rest.hasName m

/-- The walkDir and processPath parameters and WalkOptions, bundled. -/
structure WalkCfg where
  extensions : List String
  includeHidden : Bool
  ignoreFilesOnly : Bool
  ignoreGitignore : Bool
  ignorePatterns : List String
  ig : Option (String → Bool)
  quiet : Bool
  pathMapper : Option (String → String)
  maxFiles : Option Nat
  maxSize : Option Nat

/-- The fixed default denylist DEFAULT_IGNORES of src/utils.ts. -/
def DEFAULT_IGNORES : List String := [".env", ".env.*", ".env*", ".gitignore"]

def isJsSpace (c : Char) : Bool :=
  c == ' ' || c == '\t' || c == '\n' || c == '\r' || c == '\x0b' || c == '\x0c'

def trimCh (l : List Char) : List Char :=
  ((l.dropWhile isJsSpace).reverse.dropWhile isJsSpace).reverse

/-- The .gitignore parse of readGitignore: split on newlines, trim, keep
the lines that are nonempty and do not start with a hash. -/
def parseGitignore (content : String) : List String :=
  ((splitLines content).map (fun s => String.mk (trimCh s.data))).filter
    (fun l => l != "" && !leadsWith ['#'] l.data)

/-- Embedding of `readGitignore(dir)` over the modelled directory.  When
an entry named .gitignore exists the source opens it for reading (the
event); the rules come from a readable file entry, while a read failure
or a directory of that name gives no rules (the catch). -/
def readGitignoreM (root : String) (t : FSTree) : List WalkEvent × List String :=
  match t.files.find? (fun f => f.1 == ".gitignore") with
  | some f =>
    ([WalkEvent.gitignoreRead (root ++ "/.gitignore")],
     match f.2.read with
     | ReadResult.ok c => parseGitignore c
     | _ => [])
  | none =>
    if t.dirs.hasName ".gitignore" then
      ([WalkEvent.gitignoreRead (root ++ "/.gitignore")], [])
    else ([], [])

/-- Embedding of `shouldIgnore(fullPath, rules)`.  The source stats the
path to decide whether to also try the rule with a trailing slash; the
walker knows which partition a path came from, so the flag is a
parameter (a vanished path stats as not a directory, like a file). -/
def shouldIgnore (fullPath : String) (isDir : Bool) (rules : List String) : Bool :=
  rules.any (fun rule =>
    fnmatch (basename fullPath) rule
      || (isDir && fnmatch (basename fullPath ++ "/") rule))

/-- Charwise lexicographic order; the default JavaScript Array.sort
comparison on strings.  (JavaScript compares UTF-16 code units; the two
orders agree below the astral planes, and names inside one directory are
distinct, so the sorted list is fully determined.) -/
def lexLtCh : List Char → List Char → Bool
  | [], [] => false
  | [], _ :: _ => true
  | _ :: _, [] => false
  | a :: as, b :: bs => a < b || (a == b && lexLtCh as bs)

def insertFile (x : String × FileData) :
    List (String × FileData) → List (String × FileData)
  | [] => [x]
  | y :: ys => if lexLtCh y.1.data x.1.data then y :: insertFile x ys else x :: y :: ys

/-- A stable sort by name; the model of `files.sort()`. -/
def sortFiles : List (String × FileData) → List (String × FileData)
  | [] => []
  | x :: xs => insertFile x (sortFiles xs)

def trailsWith (suffix l : List Char) : Bool :=
  leadsWith suffix.reverse l.reverse

def displayPath (cfg : WalkCfg) (p : String) : String :=
  match cfg.pathMapper with
  | some f => f p
  | none => p

/-- The read-and-emit tail of the per-file body: readFileSync, the
printer call and the counter bump on success; ENOENT is swallowed
silently; any other read failure warns unless quiet.  No failure stops
the caller. -/
def readStep (cfg : WalkCfg) (p : String) (fd : FileData) (counter : Option Nat) :
    List WalkEvent × Option Nat :=
  match fd.read with
  | ReadResult.ok content =>
    ([WalkEvent.readContent p, WalkEvent.emitted p (displayPath cfg p) content],
     counter.map (· + 1))
  | ReadResult.enoent => ([WalkEvent.readContent p], counter)
  | ReadResult.err =>
    ([WalkEvent.readContent p] ++ (if cfg.quiet then [] else [WalkEvent.warned p]),
     counter)

/-- The size-skip condition of the per-file body: a maxSize is set, the
stat succeeded, and the size exceeds the bound (a failed stat is ignored
by the inner catch, and the file proceeds to the read). -/
def sizeSkips (cfg : WalkCfg) (fd : FileData) : Bool :=
  match cfg.maxSize, fd.size with
  | some ms, some sz => ms < sz
  | _, _ => false

/-- The body of one per-file iteration after the maxFiles check: skip a
binary file silently, skip an oversized file with a warning, otherwise
read. -/
def fileStep (cfg : WalkCfg) (p : String) (fd : FileData) (counter : Option Nat) :
    List WalkEvent × Option Nat :=
  let sniff := isBinaryFile p fd.sniff
  if sniff.2 then (sniff.1, counter)
  else if sizeSkips cfg fd then
    (sniff.1 ++ (if cfg.quiet then [] else [WalkEvent.warned p]), counter)
  else
    let r := readStep cfg p fd counter
    (sniff.1 ++ r.1, r.2)

/-- The maxFiles stop test, as guarded in the source: a maxFiles value
and a counter object must both be present. -/
def stopNow (cfg : WalkCfg) (counter : Option Nat) : Bool :=
  match cfg.maxFiles, counter with
  | some m, some c => m ≤ c
  | _, _ => false

/-- The per-file loop of walkDir over the filtered sorted list: the
events, the counter, and whether the maxFiles stop fired (in the source
that is a return from the whole walkDir call, skipping the subdirectory
loop). -/
def fileLoop (cfg : WalkCfg) (root : String) :
    List (String × FileData) → Option Nat → List WalkEvent × Option Nat × Bool
  | [], counter => ([], counter, false)
  | (name, fd) :: rest, counter =>
    if stopNow cfg counter then ([], counter, true)
    else
      let s := fileStep cfg (root ++ "/" ++ name) fd counter
      let r := fileLoop cfg root rest s.2
      (s.1 ++ r.1, r.2.1, r.2.2)

/-- The rule list in force at one directory, with the event of reading
the directory gitignore: in fallback mode (no project matcher) and
without the ignore-gitignore flag, the entries are pushed onto the
shared list before any filtering; otherwise nothing is pushed. -/
def levelRules (cfg : WalkCfg) (root : String) (t : FSTree) (rules : List String) :
    List WalkEvent × List String :=
  match cfg.ig with
  | some _ => ([], rules)
  | none =>
    if cfg.ignoreGitignore then ([], rules)
    else ((readGitignoreM root t).1, rules ++ (readGitignoreM root t).2)

/-- The hidden-entry filter (the source applies it to dirents and then a
second, idempotent time to the file names). -/
def keepHidden (cfg : WalkCfg) (name : String) : Bool :=
  cfg.includeHidden || !leadsWith ['.'] name.data

def combinedIgnorePatterns (cfg : WalkCfg) : List String :=
  DEFAULT_IGNORES ++ cfg.ignorePatterns

/-- The gitignore-side file filter: the project matcher on the joined
path when present, else the accumulated rules (the source skips the
filter entirely when the rule list is empty). -/
def keepFileGit (cfg : WalkCfg) (rules : List String) (p : String) : Bool :=
  match cfg.ig with
  | some m => !m p
  | none => rules.isEmpty || !shouldIgnore p false rules

def keepDirGit (cfg : WalkCfg) (rules : List String) (p : String) : Bool :=
  match cfg.ig with
  | some m => !m p
  | none => rules.isEmpty || !shouldIgnore p true rules

/-- The default-plus-custom pattern filter on file basenames; the
combined list is never empty (DEFAULT_IGNORES is fixed), so the length
guard of the source is folded in. -/
def keepFilePat (cfg : WalkCfg) (name : String) : Bool :=
  !(combinedIgnorePatterns cfg).any (fun pat => fnmatch name pat)

/-- The same filter on directory basenames, skipped entirely under the
ignore-files-only flag. -/
def keepDirPat (cfg : WalkCfg) (name : String) : Bool :=
  cfg.ignoreFilesOnly || !(combinedIgnorePatterns cfg).any (fun pat => fnmatch name pat)

/-- The extension filter: kept iff the name ends with one of the
configured suffixes, when any are configured. -/
def keepExt (cfg : WalkCfg) (name : String) : Bool :=
  cfg.extensions.isEmpty || cfg.extensions.any (fun e => trailsWith e.data name.data)

/-- The file list of one directory after every filter, sorted. -/
def finalFiles (cfg : WalkCfg) (root : String) (rules : List String)
    (files : List (String × FileData)) : List (String × FileData) :=
  sortFiles ((((files.filter (fun f => keepHidden cfg f.1)).filter
      (fun f => keepFileGit cfg rules (root ++ "/" ++ f.1))).filter
      (fun f => keepFilePat cfg f.1)).filter
      (fun f => keepExt cfg f.1))

/-- The directory prune decision, taken with the rule list the parent
holds before its subdirectory loop. -/
def keepDir (cfg : WalkCfg) (root : String) (rules : List String) (name : String) : Bool :=
  keepHidden cfg name && keepDirGit cfg rules (root ++ "/" ++ name)
    && keepDirPat cfg name

structure WalkOut where
  events : List WalkEvent
  rules : List String
  counter : Option Nat
deriving DecidableEq, Repr

mutual
/-- Embedding of `walkDir(root, ...)`: the events in order, the rule
list as the shared array ends up after the call, and the counter.  When
the file loop hits the maxFiles stop, the source returns from walkDir
and the subdirectory loop does not run. -/
def walkTree (cfg : WalkCfg) : String → FSTree → List String → Option Nat → WalkOut
  | root, FSTree.node files dirs, rules, counter =>
    let lr := levelRules cfg root (FSTree.node files dirs) rules
    let fl := fileLoop cfg root (finalFiles cfg root lr.2 files) counter
    if fl.2.2 then
      ⟨lr.1 ++ fl.1, lr.2, fl.2.1⟩
    else
      let sub := walkForest cfg root (keepDir cfg root lr.2) dirs lr.2 fl.2.1
      ⟨lr.1 ++ fl.1 ++ sub.events, sub.rules, sub.counter⟩

/-- The subdirectory loop: the prune decision was fixed before the loop
with the parent rule list, while the shared rule list itself is threaded
through the children in order, so a child sees everything pushed by the
subtrees walked before it. -/
def walkForest (cfg : WalkCfg) : String → (String → Bool) → FSForest →
    List String → Option Nat → WalkOut
  | _, _, FSForest.nil, rules, counter => ⟨[], rules, counter⟩
  | root, keep, FSForest.cons name t rest, rules, counter =>
    if keep name then
      let o := walkTree cfg (root ++ "/" ++ name) t rules counter
      let r := walkForest cfg root keep rest o.rules o.counter
      ⟨o.events ++ r.events, r.rules, r.counter⟩
    else
      walkForest cfg root keep rest rules counter
end

/-- What processPath finds at its path: a file with its data, a
directory with its tree, or nothing. -/
inductive PathNode where
  | file (fd : FileData)
  | dir (t : FSTree)
  | missing

/-- Embedding of `processPath(p, ...)`: a missing path does nothing; a
file is checked against the project matcher, the accumulated rules and
the default-plus-custom patterns (all three regardless of flags), then
fed to the per-file body with no hidden, extension or maxFiles check; a
directory delegates to walkDir. -/
def processPath (cfg : WalkCfg) (p : String) (node : PathNode)
    (rules : List String) (counter : Option Nat) : WalkOut :=
  match node with
  | PathNode.missing => ⟨[], rules, counter⟩
  | PathNode.file fd =>
    if (match cfg.ig with | some m => m p | none => false)
        || shouldIgnore p false rules
        || shouldIgnore p false (combinedIgnorePatterns cfg) then
      ⟨[], rules, counter⟩
    else
      let s := fileStep cfg p fd counter
      ⟨s.1, rules, s.2⟩
  | PathNode.dir t => walkTree cfg p t rules counter

def validName (n : String) : Bool :=
  n != "" && !n.data.contains '/'

mutual
/-- Well-formed modelled trees: entry names are nonempty and hold no
slash, as names returned by readdirSync do. -/
def validTree : FSTree → Bool
  | FSTree.node files dirs =>
    files.all (fun f => validName f.1) && validForest dirs

def validForest : FSForest → Bool
  | FSForest.nil => true
  | FSForest.cons n t rest => validName n && validTree t && validForest rest
end

def WalkEvent.path : WalkEvent → String
  | .gitignoreRead p => p
  | .sniffed p => p
  | .readContent p => p
  | .emitted p _ _ => p
  | .warned p => p

def WalkEvent.isGitignoreRead : WalkEvent → Bool
  | .gitignoreRead _ => true
  | _ => false

def WalkEvent.isEmit : WalkEvent → Bool
  | .emitted _ _ _ => true
  | _ => false

def WalkEvent.isWarn : WalkEvent → Bool
  | .warned _ => true
  | _ => false

/-- The source paths of the emitted documents, in order. -/
def emittedPaths (events : List WalkEvent) : List String :=
  events.filterMap (fun e => match e with
    | WalkEvent.emitted p _ _ => some p
    | _ => none)

theorem fileStep_read_phase (cfg : WalkCfg) (p : String) (fd : FileData)
    (c : Option Nat) (hb : (isBinaryFile p fd.sniff).2 = false)
    (hs : sizeSkips cfg fd = false) :
    fileStep cfg p fd c =
      ((isBinaryFile p fd.sniff).1 ++ (readStep cfg p fd c).1,
       (readStep cfg p fd c).2) := by
  rw [fileStep]
  simp only [hb, hs]
  simp

theorem readStep_enoent (cfg : WalkCfg) (p : String) (fd : FileData)
    (c : Option Nat) (h : fd.read = ReadResult.enoent) :
    readStep cfg p fd c = ([WalkEvent.readContent p], c) := by
  rw [readStep, h]

theorem readStep_err (cfg : WalkCfg) (p : String) (fd : FileData)
    (c : Option Nat) (h : fd.read = ReadResult.err) :
    readStep cfg p fd c =
      ([WalkEvent.readContent p]
        ++ (if cfg.quiet then [] else [WalkEvent.warned p]), c) := by
  rw [readStep, h]

theorem isBinaryFile_events (p : String) (s : Option (List Nat)) :
    (isBinaryFile p s).1 = [] ∨ (isBinaryFile p s).1 = [WalkEvent.sniffed p] := by
  cases s with
  | none =>
    rw [isBinaryFile]
    by_cases h : (extKey p != "" && BINARY_EXTENSIONS.contains (extKey p)) = true
    · rw [if_pos h]
      exact Or.inl rfl
    · rw [if_neg h]
      exact Or.inr rfl
  | some bytes =>
    rw [isBinaryFile]
    by_cases h : (extKey p != "" && BINARY_EXTENSIONS.contains (extKey p)) = true
    · rw [if_pos h]
      exact Or.inl rfl
    · rw [if_neg h]
      exact Or.inr rfl

theorem fileStep_binary_skip (cfg : WalkCfg) (p : String) (fd : FileData)
    (c : Option Nat) (hb : (isBinaryFile p fd.sniff).2 = true) :
    fileStep cfg p fd c = ((isBinaryFile p fd.sniff).1, c) := by
  rw [fileStep]
  simp only [hb]
  simp

theorem fileStep_size_skip (cfg : WalkCfg) (p : String) (fd : FileData)
    (c : Option Nat) (hb : (isBinaryFile p fd.sniff).2 = false)
    (hs : sizeSkips cfg fd = true) :
    fileStep cfg p fd c =
      ((isBinaryFile p fd.sniff).1
        ++ (if cfg.quiet then [] else [WalkEvent.warned p]), c) := by
  rw [fileStep]
  simp only [hb, hs]
  simp

theorem emittedPaths_append (a b : List WalkEvent) :
    emittedPaths (a ++ b) = emittedPaths a ++ emittedPaths b := by
  simp [emittedPaths]

theorem fileStep_fail_state (cfg : WalkCfg) (p : String) (fd : FileData)
    (c : Option Nat)
    (hr : fd.read = ReadResult.enoent ∨ fd.read = ReadResult.err) :
    (fileStep cfg p fd c).2 = c ∧ emittedPaths (fileStep cfg p fd c).1 = [] := by
  have hsniff : emittedPaths (isBinaryFile p fd.sniff).1 = [] := by
    rcases isBinaryFile_events p fd.sniff with h | h <;> rw [h] <;> rfl
  by_cases hb : (isBinaryFile p fd.sniff).2 = true
  · rw [fileStep_binary_skip cfg p fd c hb]
    exact ⟨rfl, hsniff⟩
  · have hb' : (isBinaryFile p fd.sniff).2 = false := by simpa using hb
    by_cases hs : sizeSkips cfg fd = true
    · rw [fileStep_size_skip cfg p fd c hb' hs]
      refine ⟨rfl, ?_⟩
      rw [emittedPaths_append, hsniff]
      cases hq : cfg.quiet <;> rfl
    · have hs' : sizeSkips cfg fd = false := by simpa using hs
      rw [fileStep_read_phase cfg p fd c hb' hs']
      rcases hr with h | h
      · rw [readStep_enoent cfg p fd c h]
        exact ⟨rfl, by rw [emittedPaths_append, hsniff]; rfl⟩
      · rw [readStep_err cfg p fd c h]
        refine ⟨rfl, ?_⟩
        rw [emittedPaths_append, hsniff]
        cases hq : cfg.quiet <;> rfl

theorem fileLoop_cons_eq (cfg : WalkCfg) (root name : String) (fd : FileData)
    (rest : List (String × FileData)) (c : Option Nat)
    (hstop : stopNow cfg c = false) :
    fileLoop cfg root ((name, fd) :: rest) c =
      ((fileStep cfg (root ++ "/" ++ name) fd c).1
          ++ (fileLoop cfg root rest (fileStep cfg (root ++ "/" ++ name) fd c).2).1,
       (fileLoop cfg root rest (fileStep cfg (root ++ "/" ++ name) fd c).2).2.1,
       (fileLoop cfg root rest (fileStep cfg (root ++ "/" ++ name) fd c).2).2.2) := by
  rw [fileLoop]
  rw [if_neg (by simp [hstop])]

/-- C9: a vanished file (ENOENT at read time) is skipped with no warning
and no emission; any other read failure is skipped with a warning
exactly when quiet mode is off; in every failure case the counter is
unchanged and the loop goes on to the remaining files with the same
state, emitting exactly what it would emit without the failed file; and
the file loop never stops early unless a maxFiles bound is set. -/
theorem read_failure_handling :
    (∀ cfg p fd c, (isBinaryFile p fd.sniff).2 = false → sizeSkips cfg fd = false →
        fd.read = ReadResult.enoent →
        fileStep cfg p fd c =
          ((isBinaryFile p fd.sniff).1 ++ [WalkEvent.readContent p], c))
    ∧ (∀ cfg p fd c, (isBinaryFile p fd.sniff).2 = false → sizeSkips cfg fd = false →
        fd.read = ReadResult.err → cfg.quiet = false →
        fileStep cfg p fd c =
          ((isBinaryFile p fd.sniff).1
            ++ [WalkEvent.readContent p, WalkEvent.warned p], c))
    ∧ (∀ cfg p fd c, (isBinaryFile p fd.sniff).2 = false → sizeSkips cfg fd = false →
        fd.read = ReadResult.err → cfg.quiet = true →
        fileStep cfg p fd c =
          ((isBinaryFile p fd.sniff).1 ++ [WalkEvent.readContent p], c))
    ∧ (∀ cfg root name fd rest c, stopNow cfg c = false →
        (fd.read = ReadResult.enoent ∨ fd.read = ReadResult.err) →
        emittedPaths (fileLoop cfg root ((name, fd) :: rest) c).1
            = emittedPaths (fileLoop cfg root rest c).1
          ∧ (fileLoop cfg root ((name, fd) :: rest) c).2
              = (fileLoop cfg root rest c).2)
    ∧ (∀ cfg root files c, cfg.maxFiles = none →
        (fileLoop cfg root files c).2.2 = false) := by
  refine ⟨?_, ?_, ?_, ?_, ?_⟩
  · intro cfg p fd c hb hs h
    rw [fileStep_read_phase cfg p fd c hb hs, readStep_enoent cfg p fd c h]
  · intro cfg p fd c hb hs h hq
    rw [fileStep_read_phase cfg p fd c hb hs, readStep_err cfg p fd c h, hq]
    rfl
  · intro cfg p fd c hb hs h hq
    rw [fileStep_read_phase cfg p fd c hb hs, readStep_err cfg p fd c h, hq]
    rfl
  · intro cfg root name fd rest c hstop hr
    obtain ⟨hcnt, hemit⟩ :=
      fileStep_fail_state cfg (root ++ "/" ++ name) fd c hr
    rw [fileLoop_cons_eq cfg root name fd rest c hstop]
    rw [hcnt]
    constructor
    · rw [emittedPaths_append, hemit]
      rfl
    · rfl
  · intro cfg root files c hmax
    induction files generalizing c with
    | nil => rfl
    | cons f rest ih =>
      obtain ⟨name, fd⟩ := f
      have hstop : stopNow cfg c = false := by
        cases c <;> simp [stopNow, hmax]
      rw [fileLoop_cons_eq cfg root name fd rest c hstop]
      exact ih _

/-- C9 witness: the vanished-file clause applied to a concrete file that
reads as ENOENT: the step records the sniff and the read attempt only,
no warning, no emission, and the counter value zero is unchanged. -/
theorem read_failure_handling_witness :
    fileStep ⟨[], false, false, false, [], none, false, none, none, none⟩
        "root/a.txt" ⟨some [104], none, ReadResult.enoent⟩ (some 0) =
      ((isBinaryFile "root/a.txt" (some [104])).1
        ++ [WalkEvent.readContent "root/a.txt"], some 0) :=
  read_failure_handling.1
    ⟨[], false, false, false, [], none, false, none, none, none⟩
    "root/a.txt" ⟨some [104], none, ReadResult.enoent⟩ (some 0)
    (by decide) (by decide) rfl

theorem takeWhile_append_stop {α : Type} (p : α → Bool) {a : List α} (b : List α)
    {c : α} (ha : ∀ x ∈ a, p x = true) (hc : p c = false) :
    (a ++ c :: b).takeWhile p = a := by
  induction a with
  | nil =>
    simp only [List.nil_append]
    rw [List.takeWhile_cons, hc]
    simp
  | cons x xs ih =>
    simp only [List.cons_append]
    rw [List.takeWhile_cons, ha x (by simp)]
    simp
    exact ih (fun y hy => ha y (by simp [hy]))

theorem validName_no_slash {n : String} (h : validName n = true) : '/' ∉ n.data := by
  rw [validName] at h
  simp at h
  simpa using h.2

theorem basename_append (root f : String) (hf : '/' ∉ f.data) :
    basename (root ++ "/" ++ f) = f := by
  rw [basename, baseNameCh]
  rw [show (root ++ "/" ++ f).data = (root.data ++ ['/']) ++ f.data from by
    rw [string_data_append, string_data_append]]
  rw [List.reverse_append]
  rw [show (root.data ++ ['/']).reverse = '/' :: root.data.reverse from by simp]
  rw [takeWhile_append_stop _ root.data.reverse
    (fun x hx => by
      simp at hx
      simp
      intro hx'
      subst hx'
      exact hf hx)
    (by decide)]
  rw [List.reverse_reverse]

theorem mem_insertFile {x y : String × FileData} :
    ∀ {l : List (String × FileData)}, y ∈ insertFile x l ↔ y = x ∨ y ∈ l := by
  intro l
  induction l with
  | nil => simp [insertFile]
  | cons z zs ih =>
    rw [insertFile]
    by_cases h : lexLtCh z.1.data x.1.data = true
    · rw [if_pos h]
      simp [ih]
      tauto
    · rw [if_neg h]
      simp

theorem mem_sortFiles {y : String × FileData} :
    ∀ {l : List (String × FileData)}, y ∈ sortFiles l ↔ y ∈ l := by
  intro l
  induction l with
  | nil => simp [sortFiles]
  | cons z zs ih =>
    rw [sortFiles, mem_insertFile]
    simp [ih]

theorem mem_finalFiles {cfg : WalkCfg} {root : String} {rules : List String}
    {files : List (String × FileData)} {f : String × FileData}
    (h : f ∈ finalFiles cfg root rules files) :
    f ∈ files ∧ keepHidden cfg f.1 = true
      ∧ keepFileGit cfg rules (root ++ "/" ++ f.1) = true
      ∧ keepFilePat cfg f.1 = true ∧ keepExt cfg f.1 = true := by
  rw [finalFiles] at h
  rw [mem_sortFiles] at h
  rcases List.mem_filter.mp h with ⟨h, hext⟩
  rcases List.mem_filter.mp h with ⟨h, hpat⟩
  rcases List.mem_filter.mp h with ⟨h, hgit⟩
  rcases List.mem_filter.mp h with ⟨h, hhid⟩
  exact ⟨h, hhid, hgit, hpat, hext⟩

theorem readStep_ok (cfg : WalkCfg) (p : String) (fd : FileData) (c : Option Nat)
    (content : String) (h : fd.read = ReadResult.ok content) :
    readStep cfg p fd c =
      ([WalkEvent.readContent p,
        WalkEvent.emitted p (displayPath cfg p) content], c.map (· + 1)) := by
  rw [readStep, h]

theorem readStep_event_paths (cfg : WalkCfg) (p : String) (fd : FileData)
    (c : Option Nat) : ∀ e ∈ (readStep cfg p fd c).1, WalkEvent.path e = p := by
  intro e he
  rcases hr : fd.read with content | _ | _
  · rw [readStep_ok cfg p fd c content hr] at he
    simp at he
    rcases he with he | he <;> subst he <;> rfl
  · rw [readStep_enoent cfg p fd c hr] at he
    simp at he
    subst he
    rfl
  · rw [readStep_err cfg p fd c hr] at he
    rcases List.mem_append.mp he with h | h
    · simp at h
      subst h
      rfl
    · cases hq : cfg.quiet <;> rw [hq] at h <;> simp at h
      subst h
      rfl

theorem fileStep_event_paths (cfg : WalkCfg) (p : String) (fd : FileData)
    (c : Option Nat) : ∀ e ∈ (fileStep cfg p fd c).1, WalkEvent.path e = p := by
  intro e he
  have hsniff : ∀ x ∈ (isBinaryFile p fd.sniff).1, WalkEvent.path x = p := by
    rcases isBinaryFile_events p fd.sniff with h | h <;> rw [h]
    · intro x hx
      simp at hx
    · intro x hx
      simp at hx
      subst hx
      rfl
  by_cases hb : (isBinaryFile p fd.sniff).2 = true
  · rw [fileStep_binary_skip cfg p fd c hb] at he
    exact hsniff e he
  · have hb' : (isBinaryFile p fd.sniff).2 = false := by simpa using hb
    by_cases hs : sizeSkips cfg fd = true
    · rw [fileStep_size_skip cfg p fd c hb' hs] at he
      rcases List.mem_append.mp he with h | h
      · exact hsniff e h
      · cases hq : cfg.quiet <;> rw [hq] at h <;> simp at h
        subst h
        rfl
    · have hs' : sizeSkips cfg fd = false := by simpa using hs
      rw [fileStep_read_phase cfg p fd c hb' hs'] at he
      rcases List.mem_append.mp he with h | h
      · exact hsniff e h
      · exact readStep_event_paths cfg p fd c e h

theorem fileLoop_event_origin (cfg : WalkCfg) (root : String) :
    ∀ (files : List (String × FileData)) (c : Option Nat),
      ∀ e ∈ (fileLoop cfg root files c).1,
        ∃ f ∈ files, WalkEvent.path e = root ++ "/" ++ f.1 := by
  intro files
  induction files with
  | nil =>
    intro c e he
    simp [fileLoop] at he
  | cons f rest ih =>
    intro c e he
    obtain ⟨name, fd⟩ := f
    by_cases hstop : stopNow cfg c = true
    · rw [fileLoop, if_pos hstop] at he
      simp at he
    · rw [fileLoop_cons_eq cfg root name fd rest c (by simpa using hstop)] at he
      rcases List.mem_append.mp he with h | h
      · exact ⟨(name, fd), by simp, fileStep_event_paths cfg _ fd c e h⟩
      · obtain ⟨f, hf, hp⟩ := ih _ e h
        exact ⟨f, by simp [hf], hp⟩

theorem levelRules_ext (cfg : WalkCfg) (root : String) (t : FSTree)
    (rules : List String) :
    ∃ ext, (levelRules cfg root t rules).2 = rules ++ ext := by
  rw [levelRules]
  split
  · exact ⟨[], by simp⟩
  · split
    · exact ⟨[], by simp⟩
    · exact ⟨(readGitignoreM root t).2, rfl⟩

theorem readGitignoreM_events (root : String) (t : FSTree) :
    ∀ e ∈ (readGitignoreM root t).1, WalkEvent.isGitignoreRead e = true := by
  intro e he
  rw [readGitignoreM] at he
  split at he
  · simp at he
    subst he
    rfl
  · split at he
    · simp at he
      subst he
      rfl
    · simp at he

theorem levelRules_events (cfg : WalkCfg) (root : String) (t : FSTree)
    (rules : List String) :
    ∀ e ∈ (levelRules cfg root t rules).1, WalkEvent.isGitignoreRead e = true := by
  intro e he
  rw [levelRules] at he
  split at he
  · simp at he
  · split at he
    · simp at he
    · exact readGitignoreM_events root t e he

theorem validTree_files {files : List (String × FileData)} {dirs : FSForest}
    (h : validTree (FSTree.node files dirs) = true) :
    ∀ f ∈ files, validName f.1 = true := by
  rw [validTree] at h
  simp at h
  intro f hf
  exact h.1 f.1 f.2 hf

theorem validTree_dirs {files : List (String × FileData)} {dirs : FSForest}
    (h : validTree (FSTree.node files dirs) = true) : validForest dirs = true := by
  rw [validTree] at h
  simp at h
  exact h.2

theorem validForest_parts {name : String} {t : FSTree} {rest : FSForest}
    (h : validForest (FSForest.cons name t rest) = true) :
    validName name = true ∧ validTree t = true ∧ validForest rest = true := by
  rw [validForest] at h
  simp at h
  exact ⟨h.1.1, h.1.2, h.2⟩

mutual
theorem walkTree_rules_ext (cfg : WalkCfg) (root : String) (t : FSTree)
    (rules : List String) (c : Option Nat) :
    ∃ ext, (walkTree cfg root t rules c).rules = rules ++ ext := by
  cases t with
  | node files dirs =>
    rw [walkTree]
    split
    · exact levelRules_ext cfg root (FSTree.node files dirs) rules
    · obtain ⟨e1, he1⟩ := levelRules_ext cfg root (FSTree.node files dirs) rules
      obtain ⟨e2, he2⟩ := walkForest_rules_ext cfg root
        (keepDir cfg root (levelRules cfg root (FSTree.node files dirs) rules).2) dirs
        (levelRules cfg root (FSTree.node files dirs) rules).2
        (fileLoop cfg root
          (finalFiles cfg root (levelRules cfg root (FSTree.node files dirs) rules).2 files)
          c).2.1
      exact ⟨e1 ++ e2, by rw [he2, he1, List.append_assoc]⟩

theorem walkForest_rules_ext (cfg : WalkCfg) (root : String) (keep : String → Bool)
    (forest : FSForest) (rules : List String) (c : Option Nat) :
    ∃ ext, (walkForest cfg root keep forest rules c).rules = rules ++ ext := by
  cases forest with
  | nil => exact ⟨[], by simp [walkForest]⟩
  | cons name t rest =>
    rw [walkForest]
    split
    · obtain ⟨e1, he1⟩ := walkTree_rules_ext cfg (root ++ "/" ++ name) t rules c
      obtain ⟨e2, he2⟩ := walkForest_rules_ext cfg root keep rest
        (walkTree cfg (root ++ "/" ++ name) t rules c).rules
        (walkTree cfg (root ++ "/" ++ name) t rules c).counter
      exact ⟨e1 ++ e2, by rw [he2, he1, List.append_assoc]⟩
    · exact walkForest_rules_ext cfg root keep rest rules c
end
theorem fileLoop_final_pat (cfg : WalkCfg) (root : String) (rules : List String)
    (files : List (String × FileData)) (c : Option Nat)
    (hvf : ∀ f ∈ files, validName f.1 = true) :
    ∀ e ∈ (fileLoop cfg root (finalFiles cfg root rules files) c).1,
      (combinedIgnorePatterns cfg).any
        (fun pat => fnmatch (basename (WalkEvent.path e)) pat) = false := by
  intro e he
  obtain ⟨f, hf, hp⟩ := fileLoop_event_origin cfg root _ c e he
  obtain ⟨hfin, hhid, hgit, hpat, hext⟩ := mem_finalFiles hf
  rw [hp, basename_append root f.1 (validName_no_slash (hvf f hfin))]
  rw [keepFilePat] at hpat
  simpa using hpat

mutual
theorem walkTree_pat_clean (cfg : WalkCfg) (root : String) (t : FSTree)
    (rules : List String) (c : Option Nat) (hv : validTree t = true) :
    ∀ e ∈ (walkTree cfg root t rules c).events, WalkEvent.isGitignoreRead e = false →
      (combinedIgnorePatterns cfg).any
        (fun pat => fnmatch (basename (WalkEvent.path e)) pat) = false := by
  cases t with
  | node files dirs =>
    rw [walkTree]
    split
    · intro e he hne
      rcases List.mem_append.mp he with h | h
      · exact absurd (levelRules_events cfg root (FSTree.node files dirs) rules e h)
          (by simp [hne])
      · exact fileLoop_final_pat cfg root _ files c (validTree_files hv) e h
    · intro e he hne
      rcases List.mem_append.mp he with h | h
      · rcases List.mem_append.mp h with h2 | h2
        · exact absurd (levelRules_events cfg root (FSTree.node files dirs) rules e h2)
            (by simp [hne])
        · exact fileLoop_final_pat cfg root _ files c (validTree_files hv) e h2
      · exact walkForest_pat_clean cfg root _ dirs _ _ (validTree_dirs hv) e h hne

theorem walkForest_pat_clean (cfg : WalkCfg) (root : String) (keep : String → Bool)
    (forest : FSForest) (rules : List String) (c : Option Nat)
    (hv : validForest forest = true) :
    ∀ e ∈ (walkForest cfg root keep forest rules c).events,
      WalkEvent.isGitignoreRead e = false →
      (combinedIgnorePatterns cfg).any
        (fun pat => fnmatch (basename (WalkEvent.path e)) pat) = false := by
  cases forest with
  | nil =>
    intro e he
    simp [walkForest] at he
  | cons name t rest =>
    obtain ⟨hn, ht, hrest⟩ := validForest_parts hv
    rw [walkForest]
    split
    · intro e he hne
      rcases List.mem_append.mp he with h | h
      · exact walkTree_pat_clean cfg (root ++ "/" ++ name) t rules c ht e h hne
      · exact walkForest_pat_clean cfg root keep rest _ _ hrest e h hne
    · intro e he hne
      exact walkForest_pat_clean cfg root keep rest rules c hrest e he hne
end

theorem isEmit_not_gitignoreRead {e : WalkEvent} (h : WalkEvent.isEmit e = true) :
    WalkEvent.isGitignoreRead e = false := by
  cases e <;> simp_all [WalkEvent.isEmit, WalkEvent.isGitignoreRead]

/-- C10: no file whose basename matches one of the four default denylist
patterns is ever emitted: in a directory walk every emitted document,
under any configuration (hidden files on or off, gitignore processing on
or off, files-only mode on or off, any custom patterns), has a basename
clear of the default patterns; and a file passed directly to processPath
whose basename matches a default pattern produces no event at all. -/
theorem default_denylist_never_emitted :
    (∀ cfg root t rules c, validTree t = true →
        ((walkTree cfg root t rules c).events.filter
          (fun e => WalkEvent.isEmit e
            && DEFAULT_IGNORES.any
              (fun pat => fnmatch (basename (WalkEvent.path e)) pat))) = [])
    ∧ (∀ cfg p fd rules c,
        DEFAULT_IGNORES.any (fun pat => fnmatch (basename p) pat) = true →
        (processPath cfg p (PathNode.file fd) rules c).events = []) := by
  constructor
  · intro cfg root t rules c hv
    rw [List.filter_eq_nil_iff]
    intro e he
    intro hcontra
    simp only [Bool.and_eq_true] at hcontra
    obtain ⟨hemit, hdef⟩ := hcontra
    have hclean := walkTree_pat_clean cfg root t rules c hv e he
      (isEmit_not_gitignoreRead hemit)
    rw [combinedIgnorePatterns, List.any_append] at hclean
    simp at hclean
    simp at hdef
    obtain ⟨pat, hpat, hm⟩ := hdef
    exact absurd hm (by simpa using hclean.1 pat hpat)
  · intro cfg p fd rules c hb
    have h3 : shouldIgnore p false (combinedIgnorePatterns cfg) = true := by
      rw [shouldIgnore]
      simp [combinedIgnorePatterns]
      simp at hb
      obtain ⟨pat, hpat, hm⟩ := hb
      exact Or.inl ⟨pat, hpat, hm⟩
    rw [processPath, if_pos (by simp [h3])]

/-- C10 witness: a dotenv file handed directly to processPath with
gitignore processing disabled produces no event, and a walk over a tree
holding a .env file emits nothing that matches the default denylist. -/
theorem default_denylist_never_emitted_witness :
    (processPath ⟨[], true, false, true, [], none, false, none, none, none⟩
        "proj/.env" (PathNode.file ⟨some [65], some 2, ReadResult.ok "K=1"⟩) []
        none).events = []
    ∧ ((walkTree ⟨[], true, false, true, [], none, false, none, none, none⟩ "proj"
        (FSTree.node [(".env", ⟨some [65], some 2, ReadResult.ok "K=1"⟩)] FSForest.nil)
        [] none).events.filter
          (fun e => WalkEvent.isEmit e
            && DEFAULT_IGNORES.any
              (fun pat => fnmatch (basename (WalkEvent.path e)) pat))) = [] :=
  ⟨default_denylist_never_emitted.2
      ⟨[], true, false, true, [], none, false, none, none, none⟩
      "proj/.env" ⟨some [65], some 2, ReadResult.ok "K=1"⟩ [] none (by decide),
   default_denylist_never_emitted.1
      ⟨[], true, false, true, [], none, false, none, none, none⟩
      "proj" (FSTree.node [(".env", ⟨some [65], some 2, ReadResult.ok "K=1"⟩)] FSForest.nil)
      [] none (by decide)⟩
theorem fileLoop_final_ig (cfg : WalkCfg) (m : String → Bool) (hig : cfg.ig = some m)
    (root : String) (rules : List String) (files : List (String × FileData))
    (c : Option Nat) :
    ∀ e ∈ (fileLoop cfg root (finalFiles cfg root rules files) c).1,
      m (WalkEvent.path e) = false := by
  intro e he
  obtain ⟨f, hf, hp⟩ := fileLoop_event_origin cfg root _ c e he
  obtain ⟨_, _, hgit, _, _⟩ := mem_finalFiles hf
  rw [keepFileGit, hig] at hgit
  rw [hp]
  simpa using hgit

mutual
theorem walkTree_ig_clean (cfg : WalkCfg) (m : String → Bool) (hig : cfg.ig = some m)
    (root : String) (t : FSTree) (rules : List String) (c : Option Nat) :
    ∀ e ∈ (walkTree cfg root t rules c).events, WalkEvent.isGitignoreRead e = false →
      m (WalkEvent.path e) = false := by
  cases t with
  | node files dirs =>
    rw [walkTree]
    split
    · intro e he hne
      rcases List.mem_append.mp he with h | h
      · exact absurd (levelRules_events cfg root (FSTree.node files dirs) rules e h)
          (by simp [hne])
      · exact fileLoop_final_ig cfg m hig root _ files c e h
    · intro e he hne
      rcases List.mem_append.mp he with h | h
      · rcases List.mem_append.mp h with h2 | h2
        · exact absurd (levelRules_events cfg root (FSTree.node files dirs) rules e h2)
            (by simp [hne])
        · exact fileLoop_final_ig cfg m hig root _ files c e h2
      · exact walkForest_ig_clean cfg m hig root _ dirs _ _ e h hne

theorem walkForest_ig_clean (cfg : WalkCfg) (m : String → Bool) (hig : cfg.ig = some m)
    (root : String) (keep : String → Bool) (forest : FSForest)
    (rules : List String) (c : Option Nat) :
    ∀ e ∈ (walkForest cfg root keep forest rules c).events,
      WalkEvent.isGitignoreRead e = false → m (WalkEvent.path e) = false := by
  cases forest with
  | nil =>
    intro e he
    simp [walkForest] at he
  | cons name t rest =>
    rw [walkForest]
    split
    · intro e he hne
      rcases List.mem_append.mp he with h | h
      · exact walkTree_ig_clean cfg m hig (root ++ "/" ++ name) t rules c e h hne
      · exact walkForest_ig_clean cfg m hig root keep rest _ _ e h hne
    · intro e he hne
      exact walkForest_ig_clean cfg m hig root keep rest rules c e he hne
end

theorem rules_any_mono {rules ext : List String} {b : String}
    (h : rules.any (fun r => fnmatch b r) = true) :
    (rules ++ ext).any (fun r => fnmatch b r) = true := by
  rw [List.any_append, h]
  rfl

theorem fileLoop_final_rules_block (cfg : WalkCfg) (hig : cfg.ig = none) (b : String)
    (root : String) (rules : List String) (files : List (String × FileData))
    (c : Option Nat) (hvf : ∀ f ∈ files, validName f.1 = true)
    (hb : rules.any (fun r => fnmatch b r) = true) :
    ∀ e ∈ (fileLoop cfg root (finalFiles cfg root rules files) c).1,
      basename (WalkEvent.path e) ≠ b := by
  intro e he hcontra
  obtain ⟨f, hf, hp⟩ := fileLoop_event_origin cfg root _ c e he
  obtain ⟨hfin, _, hgit, _, _⟩ := mem_finalFiles hf
  rw [hp, basename_append root f.1 (validName_no_slash (hvf f hfin))] at hcontra
  rw [keepFileGit, hig] at hgit
  have hsi : shouldIgnore (root ++ "/" ++ f.1) false rules = true := by
    rw [shouldIgnore, basename_append root f.1 (validName_no_slash (hvf f hfin)),
      hcontra]
    simp
    simp at hb
    exact hb
  rw [hsi] at hgit
  simp at hgit
  rw [hgit] at hb
  simp at hb

mutual
theorem walkTree_rules_block (cfg : WalkCfg) (hig : cfg.ig = none) (b : String)
    (root : String) (t : FSTree) (rules : List String) (c : Option Nat)
    (hv : validTree t = true) (hb : rules.any (fun r => fnmatch b r) = true) :
    ∀ e ∈ (walkTree cfg root t rules c).events, WalkEvent.isGitignoreRead e = false →
      basename (WalkEvent.path e) ≠ b := by
  cases t with
  | node files dirs =>
    have hlvl : ((levelRules cfg root (FSTree.node files dirs) rules).2).any
        (fun r => fnmatch b r) = true := by
      obtain ⟨ext, hext⟩ := levelRules_ext cfg root (FSTree.node files dirs) rules
      rw [hext]
      exact rules_any_mono hb
    rw [walkTree]
    split
    · intro e he hne
      rcases List.mem_append.mp he with h | h
      · exact absurd (levelRules_events cfg root (FSTree.node files dirs) rules e h)
          (by simp [hne])
      · exact fileLoop_final_rules_block cfg hig b root _ files c
          (validTree_files hv) hlvl e h
    · intro e he hne
      rcases List.mem_append.mp he with h | h
      · rcases List.mem_append.mp h with h2 | h2
        · exact absurd (levelRules_events cfg root (FSTree.node files dirs) rules e h2)
            (by simp [hne])
        · exact fileLoop_final_rules_block cfg hig b root _ files c
            (validTree_files hv) hlvl e h2
      · exact walkForest_rules_block cfg hig b root _ dirs _ _
          (validTree_dirs hv) hlvl e h hne

theorem walkForest_rules_block (cfg : WalkCfg) (hig : cfg.ig = none) (b : String)
    (root : String) (keep : String → Bool) (forest : FSForest)
    (rules : List String) (c : Option Nat) (hv : validForest forest = true)
    (hb : rules.any (fun r => fnmatch b r) = true) :
    ∀ e ∈ (walkForest cfg root keep forest rules c).events,
      WalkEvent.isGitignoreRead e = false → basename (WalkEvent.path e) ≠ b := by
  cases forest with
  | nil =>
    intro e he
    simp [walkForest] at he
  | cons name t rest =>
    obtain ⟨hn, ht, hrest⟩ := validForest_parts hv
    rw [walkForest]
    split
    · intro e he hne
      rcases List.mem_append.mp he with h | h
      · exact walkTree_rules_block cfg hig b (root ++ "/" ++ name) t rules c ht hb e h hne
      · refine walkForest_rules_block cfg hig b root keep rest _ _ hrest ?_ e h hne
        obtain ⟨ext, hext⟩ :=
          walkTree_rules_ext cfg (root ++ "/" ++ name) t rules c
        rw [hext]
        exact rules_any_mono hb
    · intro e he hne
      exact walkForest_rules_block cfg hig b root keep rest rules c hrest hb e he hne
end
/-- C1 counterexample: the default denylist excludes the name
.gitignore, yet in fallback mode the walk opens root/.gitignore for
reading (readGitignore in readdir order), so a path excluded by an
active rule source is opened for reading. -/
theorem walk_excluded_cex :
    DEFAULT_IGNORES.any (fun pat => fnmatch ".gitignore" pat) = true
    ∧ basename "root/.gitignore" = ".gitignore"
    ∧ (walkTree ⟨[], false, false, false, [], none, false, none, none, none⟩
        "root"
        (FSTree.node
          [(".gitignore", ⟨some [110], some 12, ReadResult.ok "node_modules"⟩)]
          FSForest.nil)
        [] none).events
      = [WalkEvent.gitignoreRead "root/.gitignore"] := by
  refine ⟨by decide, by decide, by decide⟩

/-- C1 (amended): a path excluded by an active rule source is never
sniffed, read for content, emitted, or warned about; the one exception
is the .gitignore file of a visited directory, which the fallback rule
reader opens as a rule source even though the default denylist keeps it
from being emitted.  Clause one: with a project-root matcher, no
recorded event other than a gitignore read has a path the matcher
excludes.  Clause two: in fallback mode, a basename matched by the
inherited rules is never the basename of any such event.  Clause three:
a basename matched by the default-plus-custom patterns is never the
basename of any such event. -/
theorem excluded_paths_never_touched :
    (∀ cfg (m : String → Bool) root t rules c, cfg.ig = some m →
        ((walkTree cfg root t rules c).events.filter
          (fun e => !WalkEvent.isGitignoreRead e && m (WalkEvent.path e))) = [])
    ∧ (∀ cfg (b : String) root t rules c, cfg.ig = none → validTree t = true →
        rules.any (fun r => fnmatch b r) = true →
        ((walkTree cfg root t rules c).events.filter
          (fun e => !WalkEvent.isGitignoreRead e
            && (basename (WalkEvent.path e) == b))) = [])
    ∧ (∀ cfg (b : String) root t rules c, validTree t = true →
        (combinedIgnorePatterns cfg).any (fun pat => fnmatch b pat) = true →
        ((walkTree cfg root t rules c).events.filter
          (fun e => !WalkEvent.isGitignoreRead e
            && (basename (WalkEvent.path e) == b))) = []) := by
  refine ⟨?_, ?_, ?_⟩
  · intro cfg m root t rules c hig
    rw [List.filter_eq_nil_iff]
    intro e he hcontra
    simp only [Bool.and_eq_true, Bool.not_eq_true'] at hcontra
    have := walkTree_ig_clean cfg m hig root t rules c e he hcontra.1
    rw [this] at hcontra
    exact absurd hcontra.2 (by simp)
  · intro cfg b root t rules c hig hv hb
    rw [List.filter_eq_nil_iff]
    intro e he hcontra
    simp only [Bool.and_eq_true, Bool.not_eq_true'] at hcontra
    have := walkTree_rules_block cfg hig b root t rules c hv hb e he hcontra.1
    exact this (by simpa using hcontra.2)
  · intro cfg b root t rules c hv hcomb
    rw [List.filter_eq_nil_iff]
    intro e he hcontra
    simp only [Bool.and_eq_true, Bool.not_eq_true'] at hcontra
    have hclean := walkTree_pat_clean cfg root t rules c hv e he hcontra.1
    have hbe : basename (WalkEvent.path e) = b := by simpa using hcontra.2
    rw [hbe] at hclean
    rw [hclean] at hcomb
    exact absurd hcomb (by simp)

/-- C1 witness: the custom-pattern clause applied to a concrete walk
over a tree holding a matching log file: no non-gitignore event touches
the excluded basename. -/
theorem excluded_paths_never_touched_witness :
    ((walkTree ⟨[], false, false, true, ["*.log"], none, false, none, none, none⟩
        "root"
        (FSTree.node [("b.log", ⟨some [104], some 2, ReadResult.ok "hi"⟩),
                      ("keep.txt", ⟨some [104], some 2, ReadResult.ok "ok"⟩)]
          FSForest.nil)
        [] none).events.filter
      (fun e => !WalkEvent.isGitignoreRead e
        && (basename (WalkEvent.path e) == "b.log"))) = [] :=
  excluded_paths_never_touched.2.2
    ⟨[], false, false, true, ["*.log"], none, false, none, none, none⟩
    "b.log" "root"
    (FSTree.node [("b.log", ⟨some [104], some 2, ReadResult.ok "hi"⟩),
                  ("keep.txt", ⟨some [104], some 2, ReadResult.ok "ok"⟩)]
      FSForest.nil)
    [] none (by decide) (by decide)
theorem stopNow_true {cfg : WalkCfg} {mf cnt : Nat} (hmf : cfg.maxFiles = some mf)
    (hc : mf ≤ cnt) : stopNow cfg (some cnt) = true := by
  simp [stopNow, hmf]
  omega

theorem stopNow_false_lt {cfg : WalkCfg} {mf cnt : Nat} (hmf : cfg.maxFiles = some mf)
    (h : stopNow cfg (some cnt) = false) : cnt < mf := by
  simp [stopNow, hmf] at h
  omega

theorem fileLoop_of_stop (cfg : WalkCfg) (root : String)
    (files : List (String × FileData)) (c : Option Nat)
    (h : stopNow cfg c = true) :
    (fileLoop cfg root files c).1 = [] ∧ (fileLoop cfg root files c).2.1 = c := by
  cases files with
  | nil => exact ⟨rfl, rfl⟩
  | cons f rest =>
    obtain ⟨n, fd⟩ := f
    rw [fileLoop, if_pos h]
    exact ⟨rfl, rfl⟩

mutual
theorem walkTree_post_limit (cfg : WalkCfg) (mf : Nat) (hmf : cfg.maxFiles = some mf)
    (root : String) (t : FSTree) (rules : List String) (cnt : Nat) (hc : mf ≤ cnt) :
    (∀ e ∈ (walkTree cfg root t rules (some cnt)).events,
        WalkEvent.isGitignoreRead e = true)
    ∧ (walkTree cfg root t rules (some cnt)).counter = some cnt := by
  cases t with
  | node files dirs =>
    have hstop := stopNow_true hmf hc
    obtain ⟨hfl1, hfl2⟩ := fileLoop_of_stop cfg root
      (finalFiles cfg root (levelRules cfg root (FSTree.node files dirs) rules).2 files)
      (some cnt) hstop
    rw [walkTree]
    split
    · simp only []
      constructor
      · intro e he
        rw [hfl1] at he
        rcases List.mem_append.mp he with h | h
        · exact levelRules_events cfg root (FSTree.node files dirs) rules e h
        · simp at h
      · exact hfl2
    · simp only []
      rw [hfl1, hfl2]
      obtain ⟨hsub1, hsub2⟩ := walkForest_post_limit cfg mf hmf root
        (keepDir cfg root (levelRules cfg root (FSTree.node files dirs) rules).2)
        dirs (levelRules cfg root (FSTree.node files dirs) rules).2 cnt hc
      constructor
      · intro e he
        rcases List.mem_append.mp he with h | h
        · rcases List.mem_append.mp h with h2 | h2
          · exact levelRules_events cfg root (FSTree.node files dirs) rules e h2
          · simp at h2
        · exact hsub1 e h
      · exact hsub2

theorem walkForest_post_limit (cfg : WalkCfg) (mf : Nat) (hmf : cfg.maxFiles = some mf)
    (root : String) (keep : String → Bool) (forest : FSForest)
    (rules : List String) (cnt : Nat) (hc : mf ≤ cnt) :
    (∀ e ∈ (walkForest cfg root keep forest rules (some cnt)).events,
        WalkEvent.isGitignoreRead e = true)
    ∧ (walkForest cfg root keep forest rules (some cnt)).counter = some cnt := by
  cases forest with
  | nil =>
    constructor
    · intro e he
      simp [walkForest] at he
    · rfl
  | cons name t rest =>
    rw [walkForest]
    split
    · simp only []
      obtain ⟨ht1, ht2⟩ := walkTree_post_limit cfg mf hmf (root ++ "/" ++ name) t
        rules cnt hc
      rw [ht2]
      obtain ⟨hr1, hr2⟩ := walkForest_post_limit cfg mf hmf root keep rest
        (walkTree cfg (root ++ "/" ++ name) t rules (some cnt)).rules cnt hc
      constructor
      · intro e he
        rcases List.mem_append.mp he with h | h
        · exact ht1 e h
        · exact hr1 e h
      · exact hr2
    · exact walkForest_post_limit cfg mf hmf root keep rest rules cnt hc
end

theorem emittedPaths_of_gitignore : ∀ {l : List WalkEvent},
    (∀ e ∈ l, WalkEvent.isGitignoreRead e = true) → emittedPaths l = [] := by
  intro l
  induction l with
  | nil => intro _; rfl
  | cons e rest ih =>
    intro h
    have he := h e (by simp)
    have hrest := ih (fun x hx => h x (by simp [hx]))
    cases e with
    | gitignoreRead p => simpa [emittedPaths] using hrest
    | sniffed p => simp [WalkEvent.isGitignoreRead] at he
    | readContent p => simp [WalkEvent.isGitignoreRead] at he
    | emitted p d ct => simp [WalkEvent.isGitignoreRead] at he
    | warned p => simp [WalkEvent.isGitignoreRead] at he

theorem readStep_counter (cfg : WalkCfg) (p : String) (fd : FileData) (cnt : Nat) :
    (readStep cfg p fd (some cnt)).2
      = some (cnt + (emittedPaths (readStep cfg p fd (some cnt)).1).length)
    ∧ (emittedPaths (readStep cfg p fd (some cnt)).1).length ≤ 1 := by
  rcases hr : fd.read with content | _ | _
  · rw [readStep_ok cfg p fd (some cnt) content hr]
    exact ⟨rfl, by simp [emittedPaths]⟩
  · rw [readStep_enoent cfg p fd (some cnt) hr]
    exact ⟨rfl, by simp [emittedPaths]⟩
  · rw [readStep_err cfg p fd (some cnt) hr]
    cases hq : cfg.quiet <;> exact ⟨rfl, by simp [emittedPaths]⟩

theorem fileStep_counter (cfg : WalkCfg) (p : String) (fd : FileData) (cnt : Nat) :
    (fileStep cfg p fd (some cnt)).2
      = some (cnt + (emittedPaths (fileStep cfg p fd (some cnt)).1).length)
    ∧ (emittedPaths (fileStep cfg p fd (some cnt)).1).length ≤ 1 := by
  have hsniff : emittedPaths (isBinaryFile p fd.sniff).1 = [] := by
    rcases isBinaryFile_events p fd.sniff with h | h <;> rw [h] <;> rfl
  by_cases hb : (isBinaryFile p fd.sniff).2 = true
  · rw [fileStep_binary_skip cfg p fd (some cnt) hb, hsniff]
    exact ⟨rfl, by simp⟩
  · have hb' : (isBinaryFile p fd.sniff).2 = false := by simpa using hb
    by_cases hs : sizeSkips cfg fd = true
    · rw [fileStep_size_skip cfg p fd (some cnt) hb' hs, emittedPaths_append, hsniff]
      cases hq : cfg.quiet <;> exact ⟨rfl, by simp [emittedPaths]⟩
    · have hs' : sizeSkips cfg fd = false := by simpa using hs
      rw [fileStep_read_phase cfg p fd (some cnt) hb' hs', emittedPaths_append, hsniff]
      simp only [List.nil_append]
      exact readStep_counter cfg p fd cnt

theorem fileLoop_counter (cfg : WalkCfg) (root : String) :
    ∀ (files : List (String × FileData)) (cnt : Nat),
      (fileLoop cfg root files (some cnt)).2.1
        = some (cnt + (emittedPaths (fileLoop cfg root files (some cnt)).1).length) := by
  intro files
  induction files with
  | nil =>
    intro cnt
    simp [fileLoop, emittedPaths]
  | cons f rest ih =>
    intro cnt
    obtain ⟨name, fd⟩ := f
    by_cases hstop : stopNow cfg (some cnt) = true
    · rw [fileLoop, if_pos hstop]
      simp [emittedPaths]
    · rw [fileLoop_cons_eq cfg root name fd rest (some cnt) (by simpa using hstop)]
      obtain ⟨h1, _⟩ := fileStep_counter cfg (root ++ "/" ++ name) fd cnt
      rw [h1]
      rw [ih (cnt + (emittedPaths (fileStep cfg (root ++ "/" ++ name) fd (some cnt)).1).length)]
      rw [emittedPaths_append]
      simp only [List.length_append]
      congr 1
      omega

mutual
theorem walkTree_counter (cfg : WalkCfg) (root : String) (t : FSTree)
    (rules : List String) (cnt : Nat) :
    (walkTree cfg root t rules (some cnt)).counter
      = some (cnt
          + (emittedPaths (walkTree cfg root t rules (some cnt)).events).length) := by
  cases t with
  | node files dirs =>
    have hlr : emittedPaths (levelRules cfg root (FSTree.node files dirs) rules).1 = [] :=
      emittedPaths_of_gitignore
        (levelRules_events cfg root (FSTree.node files dirs) rules)
    rw [walkTree]
    split
    · simp only []
      rw [emittedPaths_append, hlr]
      simp only [List.nil_append]
      exact fileLoop_counter cfg root _ cnt
    · simp only []
      rw [fileLoop_counter cfg root
        (finalFiles cfg root (levelRules cfg root (FSTree.node files dirs) rules).2 files) cnt]
      rw [walkForest_counter cfg root
        (keepDir cfg root (levelRules cfg root (FSTree.node files dirs) rules).2) dirs
        (levelRules cfg root (FSTree.node files dirs) rules).2
        (cnt + (emittedPaths (fileLoop cfg root
          (finalFiles cfg root (levelRules cfg root (FSTree.node files dirs) rules).2 files)
          (some cnt)).1).length)]
      rw [emittedPaths_append, emittedPaths_append, hlr]
      simp only [List.nil_append, List.length_append]
      congr 1
      omega

theorem walkForest_counter (cfg : WalkCfg) (root : String) (keep : String → Bool)
    (forest : FSForest) (rules : List String) (cnt : Nat) :
    (walkForest cfg root keep forest rules (some cnt)).counter
      = some (cnt
          + (emittedPaths
              (walkForest cfg root keep forest rules (some cnt)).events).length) := by
  cases forest with
  | nil => simp [walkForest, emittedPaths]
  | cons name t rest =>
    rw [walkForest]
    split
    · simp only []
      rw [walkTree_counter cfg (root ++ "/" ++ name) t rules cnt]
      rw [walkForest_counter cfg root keep rest
        (walkTree cfg (root ++ "/" ++ name) t rules (some cnt)).rules
        (cnt + (emittedPaths
          (walkTree cfg (root ++ "/" ++ name) t rules (some cnt)).events).length)]
      rw [emittedPaths_append]
      simp only [List.length_append]
      congr 1
      omega
    · exact walkForest_counter cfg root keep rest rules cnt
end

theorem fileLoop_bound (cfg : WalkCfg) (mf : Nat) (hmf : cfg.maxFiles = some mf)
    (root : String) :
    ∀ (files : List (String × FileData)) (cnt : Nat), cnt ≤ mf →
      ∃ k, (fileLoop cfg root files (some cnt)).2.1 = some k ∧ k ≤ mf := by
  intro files
  induction files with
  | nil =>
    intro cnt hc
    exact ⟨cnt, rfl, hc⟩
  | cons f rest ih =>
    intro cnt hc
    obtain ⟨name, fd⟩ := f
    by_cases hstop : stopNow cfg (some cnt) = true
    · rw [fileLoop, if_pos hstop]
      exact ⟨cnt, rfl, hc⟩
    · have hlt := stopNow_false_lt hmf (by simpa using hstop)
      rw [fileLoop_cons_eq cfg root name fd rest (some cnt) (by simpa using hstop)]
      obtain ⟨h1, h2⟩ := fileStep_counter cfg (root ++ "/" ++ name) fd cnt
      rw [h1]
      exact ih (cnt + (emittedPaths
        (fileStep cfg (root ++ "/" ++ name) fd (some cnt)).1).length) (by omega)

mutual
theorem walkTree_bound (cfg : WalkCfg) (mf : Nat) (hmf : cfg.maxFiles = some mf)
    (root : String) (t : FSTree) (rules : List String) (cnt : Nat) (hc : cnt ≤ mf) :
    ∃ k, (walkTree cfg root t rules (some cnt)).counter = some k ∧ k ≤ mf := by
  cases t with
  | node files dirs =>
    obtain ⟨k, hk, hkle⟩ := fileLoop_bound cfg mf hmf root
      (finalFiles cfg root (levelRules cfg root (FSTree.node files dirs) rules).2 files)
      cnt hc
    rw [walkTree]
    split
    · simp only []
      exact ⟨k, hk, hkle⟩
    · simp only []
      rw [hk]
      exact walkForest_bound cfg mf hmf root
        (keepDir cfg root (levelRules cfg root (FSTree.node files dirs) rules).2) dirs
        (levelRules cfg root (FSTree.node files dirs) rules).2 k hkle

theorem walkForest_bound (cfg : WalkCfg) (mf : Nat) (hmf : cfg.maxFiles = some mf)
    (root : String) (keep : String → Bool) (forest : FSForest) (rules : List String)
    (cnt : Nat) (hc : cnt ≤ mf) :
    ∃ k, (walkForest cfg root keep forest rules (some cnt)).counter = some k ∧ k ≤ mf := by
  cases forest with
  | nil => exact ⟨cnt, rfl, hc⟩
  | cons name t rest =>
    rw [walkForest]
    split
    · simp only []
      obtain ⟨k, hk, hkle⟩ := walkTree_bound cfg mf hmf (root ++ "/" ++ name) t rules cnt hc
      rw [hk]
      exact walkForest_bound cfg mf hmf root keep rest
        (walkTree cfg (root ++ "/" ++ name) t rules (some cnt)).rules k hkle
    · exact walkForest_bound cfg mf hmf root keep rest rules cnt hc
end

/-- C3 counterexample: with maxFiles 0 and the counter already at the
limit, the walk still descends into the subdirectory and opens its
.gitignore for reading, so the recursion does not check the stop
condition before descending. -/
theorem maxfiles_descends_cex :
    (⟨[], false, false, false, [], none, false, none, some 0, none⟩
        : WalkCfg).maxFiles = some 0
    ∧ (walkTree ⟨[], false, false, false, [], none, false, none, some 0, none⟩ "root"
        (FSTree.node []
          (FSForest.cons "sub"
            (FSTree.node [(".gitignore", ⟨some [110], some 4, ReadResult.ok "node"⟩)]
              FSForest.nil)
            FSForest.nil))
        [] (some 0)).events
      = [WalkEvent.gitignoreRead "root/sub/.gitignore"] :=
  ⟨rfl, by decide⟩

/-- C3 (amended): once the shared counter has reached maxFiles, no
further file is sniffed, read or emitted at any directory level and the
counter never moves again (every remaining event is a gitignore read);
the counter always equals its start plus the number of emissions, and
under a maxFiles bound the emissions from any subtree never push it past
the bound; but the recursion does not check the stop condition before
descending: it still enters subdirectories and reads their .gitignore
files. -/
theorem maxfiles_stop_correct :
    (∀ cfg mf root t rules cnt, cfg.maxFiles = some mf → mf ≤ cnt →
        ((walkTree cfg root t rules (some cnt)).events.filter
            (fun e => !WalkEvent.isGitignoreRead e)) = []
          ∧ (walkTree cfg root t rules (some cnt)).counter = some cnt)
    ∧ (∀ cfg root t rules cnt,
        (walkTree cfg root t rules (some cnt)).counter
          = some (cnt
              + (emittedPaths (walkTree cfg root t rules (some cnt)).events).length))
    ∧ (∀ cfg mf root t rules cnt, cfg.maxFiles = some mf → cnt ≤ mf →
        cnt + (emittedPaths (walkTree cfg root t rules (some cnt)).events).length ≤ mf) := by
  refine ⟨?_, ?_, ?_⟩
  · intro cfg mf root t rules cnt hmf hc
    obtain ⟨h1, h2⟩ := walkTree_post_limit cfg mf hmf root t rules cnt hc
    refine ⟨?_, h2⟩
    rw [List.filter_eq_nil_iff]
    intro e he
    simp [h1 e he]
  · intro cfg root t rules cnt
    exact walkTree_counter cfg root t rules cnt
  · intro cfg mf root t rules cnt hmf hc
    obtain ⟨k, hk, hkle⟩ := walkTree_bound cfg mf hmf root t rules cnt hc
    have heq := Option.some.inj (hk.symm.trans (walkTree_counter cfg root t rules cnt))
    omega

/-- C3 witness: at the limit one, a walk started with the counter
already at one produces no non-gitignore event and leaves the counter at
one; started at zero its emissions stay within the bound. -/
theorem maxfiles_stop_correct_witness :
    ((walkTree ⟨[], false, false, false, [], none, false, none, some 1, none⟩ "r"
        (FSTree.node [("a.txt", ⟨some [104], some 2, ReadResult.ok "hi"⟩)] FSForest.nil)
        [] (some 1)).events.filter (fun e => !WalkEvent.isGitignoreRead e)) = []
    ∧ (walkTree ⟨[], false, false, false, [], none, false, none, some 1, none⟩ "r"
        (FSTree.node [("a.txt", ⟨some [104], some 2, ReadResult.ok "hi"⟩)] FSForest.nil)
        [] (some 1)).counter = some 1
    ∧ 0 + (emittedPaths (walkTree
        ⟨[], false, false, false, [], none, false, none, some 1, none⟩ "r"
        (FSTree.node [("a.txt", ⟨some [104], some 2, ReadResult.ok "hi"⟩)] FSForest.nil)
        [] (some 0)).events).length ≤ 1 :=
  ⟨(maxfiles_stop_correct.1
      ⟨[], false, false, false, [], none, false, none, some 1, none⟩ 1 "r"
      (FSTree.node [("a.txt", ⟨some [104], some 2, ReadResult.ok "hi"⟩)] FSForest.nil)
      [] 1 rfl (by decide)).1,
   (maxfiles_stop_correct.1
      ⟨[], false, false, false, [], none, false, none, some 1, none⟩ 1 "r"
      (FSTree.node [("a.txt", ⟨some [104], some 2, ReadResult.ok "hi"⟩)] FSForest.nil)
      [] 1 rfl (by decide)).2,
   maxfiles_stop_correct.2.2
      ⟨[], false, false, false, [], none, false, none, some 1, none⟩ 1 "r"
      (FSTree.node [("a.txt", ⟨some [104], some 2, ReadResult.ok "hi"⟩)] FSForest.nil)
      [] 0 rfl (by decide)⟩

mutual
theorem walkTree_rules_fixed (cfg : WalkCfg)
    (hng : cfg.ig.isSome = true ∨ cfg.ignoreGitignore = true) (root : String)
    (t : FSTree) (rules : List String) (c : Option Nat) :
    (walkTree cfg root t rules c).rules = rules := by
  cases t with
  | node files dirs =>
    have hlr : (levelRules cfg root (FSTree.node files dirs) rules).2 = rules := by
      rw [levelRules]
      rcases hig : cfg.ig with _ | m
      · rcases hng with h | h
        · rw [hig] at h
          simp at h
        · simp [h]
      · rfl
    rw [walkTree]
    split
    · simp only []
      exact hlr
    · simp only []
      rw [hlr]
      rw [walkTree_rules_fixed_forest cfg hng root
        (keepDir cfg root rules) dirs rules
        (fileLoop cfg root (finalFiles cfg root rules files) c).2.1]

theorem walkTree_rules_fixed_forest (cfg : WalkCfg)
    (hng : cfg.ig.isSome = true ∨ cfg.ignoreGitignore = true) (root : String)
    (keep : String → Bool) (forest : FSForest) (rules : List String) (c : Option Nat) :
    (walkForest cfg root keep forest rules c).rules = rules := by
  cases forest with
  | nil => rfl
  | cons name t rest =>
    rw [walkForest]
    split
    · simp only []
      rw [walkTree_rules_fixed cfg hng (root ++ "/" ++ name) t rules c]
      rw [walkTree_rules_fixed_forest cfg hng root keep rest rules
        (walkTree cfg (root ++ "/" ++ name) t rules c).counter]
    · exact walkTree_rules_fixed_forest cfg hng root keep rest rules c
end

/-- C4 counterexample: in fallback mode the rules pushed while walking
the earlier sibling subtree A (its .gitignore holds b.txt) are still on
the shared list when the later sibling B is walked, so B/b.txt is not
emitted; with A holding no .gitignore the same walk emits it. -/
theorem gitignore_sibling_leak_cex :
    emittedPaths (walkTree ⟨[], false, false, false, [], none, false, none, none, none⟩
        "root"
        (FSTree.node []
          (FSForest.cons "A"
            (FSTree.node [(".gitignore", ⟨some [98], some 5, ReadResult.ok "b.txt"⟩)]
              FSForest.nil)
            (FSForest.cons "B"
              (FSTree.node [("b.txt", ⟨some [104], some 2, ReadResult.ok "hi"⟩)]
                FSForest.nil)
              FSForest.nil)))
        [] none).events = []
    ∧ emittedPaths (walkTree ⟨[], false, false, false, [], none, false, none, none, none⟩
        "root"
        (FSTree.node []
          (FSForest.cons "A" (FSTree.node [] FSForest.nil)
            (FSForest.cons "B"
              (FSTree.node [("b.txt", ⟨some [104], some 2, ReadResult.ok "hi"⟩)]
                FSForest.nil)
              FSForest.nil)))
        [] none).events = ["root/B/b.txt"] := by
  exact ⟨by decide, by decide⟩

/-- C4 (amended): the rule list only ever grows: the rules present when
a walk finishes extend the rules it started from, so nothing is removed;
in fallback mode each directory appends exactly its own .gitignore
entries to the inherited list before filtering; and with a project-root
matcher or with gitignore processing disabled the list never changes.
But the rules applied while visiting a directory are those accumulated
by the whole walk up to that visit, which includes entries read in
earlier siblings' subtrees, not only the directory's own ancestors. -/
theorem gitignore_rules_accumulation :
    (∀ cfg root t rules c,
        ((walkTree cfg root t rules c).rules).take rules.length = rules)
    ∧ (∀ cfg root t rules, cfg.ig = none → cfg.ignoreGitignore = false →
        (levelRules cfg root t rules).2 = rules ++ (readGitignoreM root t).2)
    ∧ (∀ cfg root t rules c, cfg.ig.isSome = true ∨ cfg.ignoreGitignore = true →
        (walkTree cfg root t rules c).rules = rules) := by
  refine ⟨?_, ?_, ?_⟩
  · intro cfg root t rules c
    obtain ⟨ext, hext⟩ := walkTree_rules_ext cfg root t rules c
    rw [hext, List.take_left]
  · intro cfg root t rules hig hng
    rw [levelRules, hig, if_neg (by simp [hng])]
  · intro cfg root t rules c h
    exact walkTree_rules_fixed cfg h root t rules c

/-- C4 witness: a concrete walk extends the starting rule list in place,
the fallback level computation appends exactly the directory's own
.gitignore entries, and with gitignore processing off the list is
unchanged. -/
theorem gitignore_rules_accumulation_witness :
    ((walkTree ⟨[], false, false, false, [], none, false, none, none, none⟩ "r"
        (FSTree.node [(".gitignore", ⟨some [98], some 5, ReadResult.ok "b.txt"⟩)]
          FSForest.nil) ["a"] none).rules).take (["a"].length) = ["a"]
    ∧ (levelRules ⟨[], false, false, false, [], none, false, none, none, none⟩ "r"
        (FSTree.node [(".gitignore", ⟨some [98], some 5, ReadResult.ok "b.txt"⟩)]
          FSForest.nil) ["a"]).2
      = ["a"] ++ (readGitignoreM "r"
          (FSTree.node [(".gitignore", ⟨some [98], some 5, ReadResult.ok "b.txt"⟩)]
            FSForest.nil)).2
    ∧ (walkTree ⟨[], false, false, true, [], none, false, none, none, none⟩ "r"
        (FSTree.node [(".gitignore", ⟨some [98], some 5, ReadResult.ok "b.txt"⟩)]
          FSForest.nil) ["a"] none).rules = ["a"] :=
  ⟨gitignore_rules_accumulation.1
      ⟨[], false, false, false, [], none, false, none, none, none⟩ "r"
      (FSTree.node [(".gitignore", ⟨some [98], some 5, ReadResult.ok "b.txt"⟩)]
        FSForest.nil) ["a"] none,
   gitignore_rules_accumulation.2.1
      ⟨[], false, false, false, [], none, false, none, none, none⟩ "r"
      (FSTree.node [(".gitignore", ⟨some [98], some 5, ReadResult.ok "b.txt"⟩)]
        FSForest.nil) ["a"] rfl rfl,
   gitignore_rules_accumulation.2.2
      ⟨[], false, false, true, [], none, false, none, none, none⟩ "r"
      (FSTree.node [(".gitignore", ⟨some [98], some 5, ReadResult.ok "b.txt"⟩)]
        FSForest.nil) ["a"] none (Or.inr rfl)⟩
